import Mathlib

/-!
# memorycat: template engine and session state machine

A shallow embedding of `template.go`, of the record types of `storage.go` and
of `initialModel` and `model.Update` of `main.go`, followed by the properties
established about them.

Modelling choices.

* A Go string is a sequence of bytes and is modelled as a list of byte
  values.  Source literals are written with `str`, which encodes the
  characters of a literal as UTF-8.
* The two standard-library facilities used by the template engine are
  modelled at the byte level: `regexp` for the one pattern
  `\{\{([^}]+)\}\}` (leftmost, non-overlapping matches; the class `[^}]`
  matches every byte other than `}`, so a match is determined by its start),
  and `strings.TrimSpace` (leading and trailing runes with
  `unicode.IsSpace`, recognised by their UTF-8 encodings).
* `Update` returns the next state, the request it issues and the arguments of
  the `SaveCommands` calls it makes; a run-time panic (index out of range,
  write into a nil map) is the result `none`.
* The `int` fields are unbounded integers: every transition keeps them within
  one of a list length, so machine overflow is out of reach.
* `LoadCommands` and `SaveCommands` act on a `Disk` that records whether the
  path lookup or the write fails and what the file parses to.  The JSON
  encoding is modelled by its round trip: what is read back is what was
  written with every invalid UTF-8 byte replaced by U+FFFD.
* The asynchronous requests are tracked beside the state by `runPending`,
  which counts the requests issued and not yet answered.
-/

namespace Memorycat

/-! ## Go strings -/

/-- A Go string: a sequence of bytes, each a natural number below 256. -/
abbrev GoString := List Nat

/-- UTF-8 encoding of one rune, as performed by the Go conversion `string(r)`:
runes outside the Unicode range and surrogate halves encode as U+FFFD. -/
def encodeRune (r : Int) : GoString :=
  if r < 0 then [0xEF, 0xBF, 0xBD]
  else
    let n := r.toNat
    if n < 0x80 then [n]
    else if n < 0x800 then [0xC0 + n / 64, 0x80 + n % 64]
    else if 0x10FFFF < n ∨ (0xD800 ≤ n ∧ n ≤ 0xDFFF) then [0xEF, 0xBF, 0xBD]
    else if n < 0x10000 then [0xE0 + n / 4096, 0x80 + n / 64 % 64, 0x80 + n % 64]
    else [0xF0 + n / 262144, 0x80 + n / 4096 % 64, 0x80 + n / 64 % 64, 0x80 + n % 64]

/-- The Go conversion `string(runes)` of a rune slice. -/
def encodeRunes (rs : List Int) : GoString :=
  rs.flatMap encodeRune

/-- The bytes of a string literal of the source. -/
def str (s : String) : GoString :=
  encodeRunes (s.toList.map (fun c => (c.toNat : Int)))

/-! ## `strings.TrimSpace` -/

/-- The six ASCII white-space bytes of the Go table `asciiSpace`:
tab, line feed, vertical tab, form feed, carriage return, space. -/
def isAsciiSpace (b : Nat) : Bool :=
  b = 0x09 ∨ b = 0x0A ∨ b = 0x0B ∨ b = 0x0C ∨ b = 0x0D ∨ b = 0x20

/-- Width in bytes of the UTF-8 encoded white-space rune (`unicode.IsSpace`)
that `s` starts with, or `0` when `s` does not start with one.  The non-ASCII
white-space runes are U+0085, U+00A0, U+1680, U+2000..U+200A, U+2028, U+2029,
U+202F, U+205F and U+3000. -/
def leadingSpaceWidth : GoString → Nat
  | [] => 0
  | b :: s =>
    if isAsciiSpace b then 1
    else match s with
      | [] => 0
      | c :: t =>
        if b = 0xC2 ∧ (c = 0x85 ∨ c = 0xA0) then 2
        else match t with
          | [] => 0
          | d :: _ =>
            if b = 0xE1 ∧ c = 0x9A ∧ d = 0x80 then 3
            else if b = 0xE2 ∧ c = 0x80 ∧
                ((0x80 ≤ d ∧ d ≤ 0x8A) ∨ d = 0xA8 ∨ d = 0xA9 ∨ d = 0xAF) then 3
            else if b = 0xE2 ∧ c = 0x81 ∧ d = 0x9F then 3
            else if b = 0xE3 ∧ c = 0x80 ∧ d = 0x80 then 3
            else 0

/-- Width in bytes of the UTF-8 encoded white-space rune that the string ends
with, or `0` when it does not end with one; the argument is the string
reversed (last byte first). -/
def trailingSpaceWidth : GoString → Nat
  | [] => 0
  | d :: s =>
    if isAsciiSpace d then 1
    else match s with
      | [] => 0
      | c :: t =>
        if c = 0xC2 ∧ (d = 0x85 ∨ d = 0xA0) then 2
        else match t with
          | [] => 0
          | b :: _ =>
            if b = 0xE1 ∧ c = 0x9A ∧ d = 0x80 then 3
            else if b = 0xE2 ∧ c = 0x80 ∧
                ((0x80 ≤ d ∧ d ≤ 0x8A) ∨ d = 0xA8 ∨ d = 0xA9 ∨ d = 0xAF) then 3
            else if b = 0xE2 ∧ c = 0x81 ∧ d = 0x9F then 3
            else if b = 0xE3 ∧ c = 0x80 ∧ d = 0x80 then 3
            else 0

/-- Removal of leading white space: while the string starts with a white-space
rune, skip it.  `skip` counts the bytes of the current rune still to drop. -/
def trimLeftFrom : Nat → GoString → GoString
  | _, [] => []
  | k + 1, _ :: s => trimLeftFrom k s
  | 0, b :: s =>
    match leadingSpaceWidth (b :: s) with
    | 0 => b :: s
    | w + 1 => trimLeftFrom w s

/-- Removal of trailing white space, on the reversed string. -/
def trimRightFrom : Nat → GoString → GoString
  | _, [] => []
  | k + 1, _ :: s => trimRightFrom k s
  | 0, b :: s =>
    match trailingSpaceWidth (b :: s) with
    | 0 => b :: s
    | w + 1 => trimRightFrom w s

/-- The Go function `strings.TrimLeftFunc(s, unicode.IsSpace)`. -/
def TrimLeft (s : GoString) : GoString :=
  trimLeftFrom 0 s

/-- The Go function `strings.TrimRightFunc(s, unicode.IsSpace)`. -/
def TrimRight (s : GoString) : GoString :=
  (trimRightFrom 0 s.reverse).reverse

/-- The Go function `strings.TrimSpace`: the string without its leading and trailing
white space. -/
def TrimSpace (s : GoString) : GoString :=
  TrimRight (TrimLeft s)

/-! ## `regexp`, for the pattern `\{\{([^}]+)\}\}` -/

/-- The character class `[^}]`: every byte other than `}`. -/
def notRBrace (b : Nat) : Bool :=
  b ≠ 0x7D

/-- Length of the match of `\{\{([^}]+)\}\}` that starts at the first byte of
`s`, if there is one: two opening braces, the longest run of bytes other than
`}` (at least one), two closing braces. -/
def matchHere (s : GoString) : Option Nat :=
  match s with
  | a :: b :: t =>
    if a = 0x7B ∧ b = 0x7B then
      let run := t.takeWhile notRBrace
      match t.dropWhile notRBrace with
      | c :: d :: _ =>
        if run ≠ [] ∧ c = 0x7D ∧ d = 0x7D then some (run.length + 4) else none
      | _ => none
    else none
  | _ => none

/-- One piece of a scanned string: a byte outside every match, or the text of
one match. -/
inductive Piece where
  | lit (b : Nat)
  | hit (m : GoString)
  deriving DecidableEq, Repr

/-- The successive leftmost non-overlapping matches of the pattern in a
string, together with the bytes between them, in order.  `skip` counts the
bytes of the current match still to pass over. -/
def scan : Nat → GoString → List Piece
  | _, [] => []
  | k + 1, _ :: s => scan k s
  | 0, b :: s =>
    match matchHere (b :: s) with
    | some n => Piece.hit ((b :: s).take n) :: scan (n - 1) s
    | none => Piece.lit b :: scan 0 s

/-- The call `re.FindAllStringSubmatch(s, -1)`: for each match, the matched text
followed by the text of its capture group. -/
def FindAllStringSubmatch (s : GoString) : List (List GoString) :=
  (scan 0 s).filterMap (fun p =>
    match p with
    | Piece.hit m => some [m, (m.drop 2).take (m.length - 4)]
    | Piece.lit _ => none)

/-- The call `re.ReplaceAllStringFunc(s, repl)`: every match replaced by `repl`
applied to the matched text. -/
def ReplaceAllStringFunc (s : GoString) (repl : GoString → GoString) : GoString :=
  (scan 0 s).flatMap (fun p =>
    match p with
    | Piece.hit m => repl m
    | Piece.lit b => [b])

/-! ## `template.go` -/

/-- A Go `map[string]string`, as an association list with distinct keys. -/
abbrev GoMap := List (GoString × GoString)

/-- The map read `v, ok := m[k]`. -/
def GoMap.get (m : GoMap) (k : GoString) : Option GoString :=
  match m with
  | [] => none
  | (k', v) :: rest => if k = k' then some v else GoMap.get rest k

/-- The map write `m[k] = v`. -/
def GoMap.set (m : GoMap) (k v : GoString) : GoMap :=
  (k, v) :: m.filter (fun e => e.1 ≠ k)

/-- One iteration of the loop of `ExtractTemplateVars`: `acc` holds the keys
of `seen` and the slice `vars`. -/
def extractStep (acc : List GoString × List GoString) (m : List GoString) :
    List GoString × List GoString :=
  if m.length > 1 then
    let varName := TrimSpace (m.getD 1 [])
    if varName ∈ acc.1 then acc
    else (varName :: acc.1, acc.2 ++ [varName])
  else acc

/-- The function `ExtractTemplateVars` of template.go. -/
def ExtractTemplateVars (command : GoString) : List GoString :=
  ((FindAllStringSubmatch command).foldl extractStep ([], [])).2

/-- The Go slice expression `s[lo:hi]`. -/
def slice (s : GoString) (lo hi : Nat) : GoString :=
  (s.take hi).drop lo

/-- The replacement closure of `SubstituteTemplateVars`. -/
def substituteMatch (values : GoMap) (m : GoString) : GoString :=
  let varName := TrimSpace (slice m 2 (m.length - 2))
  match values.get varName with
  | some value => value
  | none => m

/-- The function `SubstituteTemplateVars` of template.go. -/
def SubstituteTemplateVars (command : GoString) (values : GoMap) : GoString :=
  ReplaceAllStringFunc command (substituteMatch values)


/-! ## `storage.go` -/

/-- The struct `Command` of storage.go: one stored record. -/
structure Command where
  Command : GoString
  Description : GoString
  deriving DecidableEq, Repr

/-- The struct `Storage` of storage.go. -/
structure Storage where
  Commands : List Command
  deriving DecidableEq, Repr

/-- A Go `error` value, represented by its message. -/
abbrev GoError := GoString

/-! ## `main.go`: the session state -/

/-- The UI modes (`type state int`). -/
inductive state where
  | stateList
  | stateInput
  | stateGenerating
  | stateTemplateInput
  | stateManualDescription
  deriving DecidableEq, Repr

/-- The struct `model` of main.go.  `storage` is the record list behind the
pointer; a nil `error` and a nil map are `none`; a nil slice is the empty
list. -/
structure model where
  storage : Storage
  currentState : state
  input : GoString
  cursor : Int
  selected : Int
  err : Option GoError
  generating : Bool
  copyMessage : GoString
  templateVars : List GoString
  templateValues : Option GoMap
  currentVarIndex : Int
  templateCommand : GoString
  pendingCommand : GoString
  deriving DecidableEq, Repr

/-- The struct `generatedMsg`: the completion event of a description
request. -/
structure generatedMsg where
  command : GoString
  description : GoString
  err : Option GoError
  deriving DecidableEq, Repr

/-- The struct `copiedMsg`: the completion event of a clipboard request. -/
structure copiedMsg where
  success : Bool
  err : Option GoError
  deriving DecidableEq, Repr

/-- The key types of the terminal library that `Update` dispatches on, and
three of the keys it ignores. -/
inductive KeyType where
  | KeyRunes
  | KeyEnter
  | KeyEsc
  | KeyCtrlC
  | KeyBackspace
  | KeySpace
  | KeyUp
  | KeyDown
  | KeyTab
  | KeyLeft
  | KeyRight
  deriving DecidableEq, Repr

/-- A key event (`tea.KeyMsg`). -/
structure KeyMsg where
  Type_ : KeyType
  Runes : List Int
  Alt : Bool
  Paste : Bool
  deriving DecidableEq, Repr

/-- The name the terminal library gives to a key type that is not
`KeyRunes`. -/
def keyName : KeyType → GoString
  | KeyType.KeyRunes => []
  | KeyType.KeyEnter => str "enter"
  | KeyType.KeyEsc => str "esc"
  | KeyType.KeyCtrlC => str "ctrl+c"
  | KeyType.KeyBackspace => str "backspace"
  | KeyType.KeySpace => str " "
  | KeyType.KeyUp => str "up"
  | KeyType.KeyDown => str "down"
  | KeyType.KeyTab => str "tab"
  | KeyType.KeyLeft => str "left"
  | KeyType.KeyRight => str "right"

/-- The method `String` of a key event: the typed runes (bracketed when
pasted) or the name of the key, prefixed with `alt+` when Alt is held. -/
def KeyMsg.String (k : KeyMsg) : GoString :=
  (if k.Alt then str "alt+" else []) ++
    (if k.Type_ = KeyType.KeyRunes then
      (if k.Paste then str "[" else []) ++ encodeRunes k.Runes ++
        (if k.Paste then str "]" else [])
    else keyName k.Type_)

/-- The events `Update` receives (`tea.Msg`): a key, a generation result, a
copy result, or a message of any other type. -/
inductive Msg where
  | key (k : KeyMsg)
  | generated (g : generatedMsg)
  | copied (c : copiedMsg)
  | other
  deriving DecidableEq, Repr

/-- The requests `Update` can return (`tea.Cmd`): quit, a description
request for a command text, a clipboard copy of a text. -/
inductive Cmd where
  | Quit
  | generateDescription (command : GoString)
  | copyToClipboard (text : GoString)
  deriving DecidableEq, Repr

/-- The outcome of `GenerateDescription` of claude.go: a failure, or the
generated text. -/
abbrev Generation := Except GoError GoString

/-- The message produced by the request `generateDescription(command)` once
`GenerateDescription` has returned. -/
def generateDescription (command : GoString) (r : Generation) : generatedMsg :=
  match r with
  | Except.error e => { command := command, description := [], err := some e }
  | Except.ok desc => { command := command, description := desc, err := none }

/-- What one call of `Update` produces: the next state, the returned request
(`none` for nil), and the arguments of the `SaveCommands` calls it made. -/
structure Step where
  next : model
  cmd : Option Cmd
  saved : List Storage
  deriving DecidableEq, Repr

/-- The Go indexing `l[i]`; `none` is the index-out-of-range panic. -/
def index {α : Type} (l : List α) (i : Int) : Option α :=
  if 0 ≤ i then l[i.toNat]? else none

/-- The function `initialModel`, given the result of `LoadCommands`. -/
def initialModel (loaded : Except GoError Storage) : model :=
  let storage :=
    match loaded with
    | Except.error _ => { Commands := [] }
    | Except.ok st => st
  { storage := storage
    currentState := state.stateList
    input := []
    cursor := 0
    selected := 0
    err := none
    generating := false
    copyMessage := []
    templateVars := []
    templateValues := none
    currentVarIndex := 0
    templateCommand := []
    pendingCommand := [] }

/-- The branch `case stateList` of `Update`. -/
def updateList (m : model) (msg : KeyMsg) : Option Step :=
  let key := msg.String
  if key = str "ctrl+c" ∨ key = str "q" then
    some { next := m, cmd := some Cmd.Quit, saved := [] }
  else if key = str "up" ∨ key = str "k" then
    let m := if m.selected > 0 then { m with selected := m.selected - 1 } else m
    some { next := { m with copyMessage := [] }, cmd := none, saved := [] }
  else if key = str "down" ∨ key = str "j" then
    let m :=
      if m.selected < (m.storage.Commands.length : Int) - 1 then
        { m with selected := m.selected + 1 }
      else m
    some { next := { m with copyMessage := [] }, cmd := none, saved := [] }
  else if key = str "n" then
    some { next := { m with currentState := state.stateInput, input := [], copyMessage := [] }
           cmd := none, saved := [] }
  else if key = str "c" ∨ key = str "enter" then
    if m.storage.Commands.length > 0 then
      match index m.storage.Commands m.selected with
      | none => none
      | some rec =>
        let command := rec.Command
        let vars := ExtractTemplateVars command
        if vars.length > 0 then
          some { next := { m with currentState := state.stateTemplateInput
                                  templateVars := vars
                                  templateValues := some []
                                  currentVarIndex := 0
                                  templateCommand := command
                                  input := [] }
                 cmd := none, saved := [] }
        else
          some { next := m, cmd := some (Cmd.copyToClipboard command), saved := [] }
    else some { next := m, cmd := none, saved := [] }
  else if key = str "d" then
    if m.storage.Commands.length > 0 then
      if 0 ≤ m.selected ∧ m.selected + 1 ≤ (m.storage.Commands.length : Int) then
        let commands :=
          m.storage.Commands.take m.selected.toNat ++
            m.storage.Commands.drop (m.selected + 1).toNat
        let selected :=
          if m.selected ≥ (commands.length : Int) ∧ m.selected > 0 then m.selected - 1
          else m.selected
        let storage : Storage := { Commands := commands }
        some { next := { m with storage := storage, selected := selected, copyMessage := [] }
               cmd := none, saved := [storage] }
      else none
    else some { next := m, cmd := none, saved := [] }
  else some { next := m, cmd := none, saved := [] }

/-- The text-edit keys shared by the three text-entry modes: backspace drops
the last byte, space appends a space, runes append their encoding. -/
def editInput (input : GoString) (msg : KeyMsg) : GoString :=
  match msg.Type_ with
  | KeyType.KeyBackspace => if input.length > 0 then input.take (input.length - 1) else input
  | KeyType.KeySpace => input ++ str " "
  | KeyType.KeyRunes => input ++ encodeRunes msg.Runes
  | _ => input

/-- The branch `case stateInput` of `Update`. -/
def updateInput (m : model) (msg : KeyMsg) : Option Step :=
  match msg.Type_ with
  | KeyType.KeyCtrlC | KeyType.KeyEsc =>
    some { next := { m with currentState := state.stateList, input := [] }
           cmd := none, saved := [] }
  | KeyType.KeyEnter =>
    if m.input ≠ [] then
      some { next := { m with currentState := state.stateGenerating }
             cmd := some (Cmd.generateDescription m.input), saved := [] }
    else some { next := m, cmd := none, saved := [] }
  | _ => some { next := { m with input := editInput m.input msg }, cmd := none, saved := [] }

/-- The branch `case stateTemplateInput` of `Update`.  The two `none` results
are the panics of indexing `templateVars` out of range and of assigning into
a nil map. -/
def updateTemplateInput (m : model) (msg : KeyMsg) : Option Step :=
  match msg.Type_ with
  | KeyType.KeyCtrlC | KeyType.KeyEsc =>
    some { next := { m with currentState := state.stateList
                            input := []
                            templateVars := []
                            templateValues := none
                            templateCommand := [] }
           cmd := none, saved := [] }
  | KeyType.KeyEnter =>
    match index m.templateVars m.currentVarIndex with
    | none => none
    | some currentVar =>
      match m.templateValues with
      | none => none
      | some values =>
        let values := values.set currentVar m.input
        let m := { m with templateValues := some values
                          input := []
                          currentVarIndex := m.currentVarIndex + 1 }
        if m.currentVarIndex ≥ (m.templateVars.length : Int) then
          let finalCommand := SubstituteTemplateVars m.templateCommand values
          some { next := { m with currentState := state.stateList
                                  templateVars := []
                                  templateValues := none
                                  templateCommand := []
                                  currentVarIndex := 0 }
                 cmd := some (Cmd.copyToClipboard finalCommand), saved := [] }
        else some { next := m, cmd := none, saved := [] }
  | _ => some { next := { m with input := editInput m.input msg }, cmd := none, saved := [] }

/-- The branch `case stateManualDescription` of `Update`. -/
def updateManualDescription (m : model) (msg : KeyMsg) : Option Step :=
  match msg.Type_ with
  | KeyType.KeyCtrlC | KeyType.KeyEsc =>
    some { next := { m with currentState := state.stateList
                            input := []
                            pendingCommand := []
                            err := none }
           cmd := none, saved := [] }
  | KeyType.KeyEnter =>
    if m.input ≠ [] then
      let storage : Storage :=
        { Commands := m.storage.Commands ++
            [{ Command := m.pendingCommand, Description := m.input }] }
      some { next := { m with storage := storage
                              currentState := state.stateList
                              selected := (storage.Commands.length : Int) - 1
                              input := []
                              pendingCommand := []
                              err := none }
             cmd := none, saved := [storage] }
    else some { next := m, cmd := none, saved := [] }
  | _ => some { next := { m with input := editInput m.input msg }, cmd := none, saved := [] }

/-- The branch `case generatedMsg` of `Update`. -/
def updateGenerated (m : model) (msg : generatedMsg) : Option Step :=
  match msg.err with
  | some e =>
    some { next := { m with pendingCommand := msg.command
                            currentState := state.stateManualDescription
                            input := []
                            err := some e }
           cmd := none, saved := [] }
  | none =>
    let storage : Storage :=
      { Commands := m.storage.Commands ++
          [{ Command := msg.command, Description := msg.description }] }
    some { next := { m with storage := storage
                            currentState := state.stateList
                            input := []
                            selected := (storage.Commands.length : Int) - 1
                            err := none }
           cmd := none, saved := [storage] }

/-- The branch `case copiedMsg` of `Update`; a nil error prints as
`<nil>`. -/
def updateCopied (m : model) (msg : copiedMsg) : Option Step :=
  if msg.success then
    some { next := { m with copyMessage := str "Copied to clipboard!" }, cmd := none, saved := [] }
  else
    let shown := match msg.err with
      | some e => e
      | none => str "<nil>"
    some { next := { m with copyMessage := str "Failed to copy: " ++ shown }
           cmd := none, saved := [] }

/-- The method `model.Update` of main.go; `none` is a run-time panic. -/
def Update (m : model) (msg : Msg) : Option Step :=
  match msg with
  | Msg.key k =>
    match m.currentState with
    | state.stateList => updateList m k
    | state.stateInput => updateInput m k
    | state.stateGenerating => some { next := m, cmd := none, saved := [] }
    | state.stateTemplateInput => updateTemplateInput m k
    | state.stateManualDescription => updateManualDescription m k
  | Msg.generated g => updateGenerated m g
  | Msg.copied c => updateCopied m c
  | Msg.other => some { next := m, cmd := none, saved := [] }

/-- What a sequence of events produces: the final state, the requests issued
and the storages saved, in order. -/
structure Trace where
  final : model
  cmds : List Cmd
  saved : List Storage
  deriving DecidableEq, Repr

/-- The event loop: `Update` applied to the events one after the other. -/
def run (m : model) : List Msg → Option Trace
  | [] => some { final := m, cmds := [], saved := [] }
  | e :: es =>
    match Update m e with
    | none => none
    | some st =>
      match run st.next es with
      | none => none
      | some t => some { final := t.final, cmds := st.cmd.toList ++ t.cmds
                         saved := st.saved ++ t.saved }

/-! ## Notions used to state the properties -/

/-- The text a piece of a scanned string stands for. -/
def Piece.text : Piece → GoString
  | Piece.lit b => [b]
  | Piece.hit m => m

/-- The text contains neither `{` nor `}`. -/
def braceFree (s : GoString) : Prop :=
  0x7B ∉ s ∧ 0x7D ∉ s

instance (s : GoString) : Decidable (braceFree s) := by
  unfold braceFree; infer_instance

/-- The name `k` is a key of the map. -/
def GoMap.hasKey (m : GoMap) (k : GoString) : Prop :=
  (m.get k).isSome = true

instance (m : GoMap) (k : GoString) : Decidable (m.hasKey k) := by
  unfold GoMap.hasKey; infer_instance

/-- The text consists of space characters only. -/
def spacesOnly (s : GoString) : Prop :=
  ∀ b ∈ s, b = 0x20

instance (s : GoString) : Decidable (spacesOnly s) := by
  unfold spacesOnly; infer_instance

/-- The text neither starts nor ends with a white-space rune. -/
def noOuterSpace (s : GoString) : Prop :=
  leadingSpaceWidth s = 0 ∧ trailingSpaceWidth s.reverse = 0

instance (s : GoString) : Decidable (noOuterSpace s) := by
  unfold noOuterSpace; infer_instance

/-- One placeholder of a well-formed template with the literal segment that
follows it: `{{`, padding `p`, name `n`, padding `q`, `}}`, then `g`. -/
structure Slot where
  p : GoString
  n : GoString
  q : GoString
  g : GoString
  deriving DecidableEq, Repr

/-- The opening delimiter of a placeholder: two left braces. -/
def openBraces : GoString :=
  [0x7B, 0x7B]

/-- The closing delimiter of a placeholder: two right braces. -/
def closeBraces : GoString :=
  [0x7D, 0x7D]

/-- The placeholder text of a slot, braces included. -/
def Slot.placeholder (sl : Slot) : GoString :=
  openBraces ++ sl.p ++ sl.n ++ sl.q ++ closeBraces

/-- The placeholder text for a name written without padding. -/
def ph (name : String) : GoString :=
  openBraces ++ str name ++ closeBraces

/-- The conditions on a slot of a well-formed template: a non-empty name
without braces and without outer white space, paddings of spaces only, a
following literal segment without braces. -/
def Slot.wellFormed (sl : Slot) : Prop :=
  sl.n ≠ [] ∧ braceFree sl.n ∧ noOuterSpace sl.n ∧ spacesOnly sl.p ∧ spacesOnly sl.q ∧
    braceFree sl.g

instance (sl : Slot) : Decidable sl.wellFormed := by
  unfold Slot.wellFormed; infer_instance

/-- The template `g0 {{p1 n1 q1}} g1 ... {{pk nk qk}} gk`. -/
def template (g0 : GoString) (slots : List Slot) : GoString :=
  g0 ++ slots.flatMap (fun sl => sl.placeholder ++ sl.g)

/-- A list of names with every later repetition of an already-listed name
removed. -/
def firstOccurrences : List GoString → List GoString
  | [] => []
  | a :: l => a :: (firstOccurrences l).filter (fun x => x ≠ a)

/-- Every value stored in the map is non-empty and contains neither `{` nor
`}`. -/
def GoMap.plainValues (m : GoMap) : Prop :=
  ∀ e ∈ m, e.2 ≠ [] ∧ braceFree e.2

instance (m : GoMap) : Decidable m.plainValues := by
  unfold GoMap.plainValues; infer_instance

/-- The replacement `f` sends every match of `s` to a non-empty text without braces. -/
def plainOn (f : GoString → GoString) (s : GoString) : Prop :=
  ∀ m, Piece.hit m ∈ scan 0 s → f m ≠ [] ∧ braceFree (f m)

/-- The text continues with bytes other than `}` up to a `}}`. -/
def closing (t : GoString) : Prop :=
  ∃ run rest, t = run ++ 0x7D :: 0x7D :: rest ∧ 0x7D ∉ run

/-- The key event of typing the runes `rs` (no Alt, not a paste). -/
def keyRunes (rs : List Int) : KeyMsg :=
  { Type_ := KeyType.KeyRunes, Runes := rs, Alt := false, Paste := false }

/-- The key event of the enter key. -/
def keyEnter : KeyMsg :=
  { Type_ := KeyType.KeyEnter, Runes := [], Alt := false, Paste := false }

/-- The copy key of the list mode: `c` or enter. -/
def isCopyKey (k : KeyMsg) : Prop :=
  k.String = str "c" ∨ k.String = str "enter"

instance (k : KeyMsg) : Decidable (isCopyKey k) := by
  unfold isCopyKey; infer_instance

/-- Typing a text: one key event per rune. -/
def typeText (rs : List Int) : List Msg :=
  rs.map (fun r => Msg.key (keyRunes [r]))

/-- Typing each text in turn and confirming it with enter. -/
def answer (texts : List (List Int)) : List Msg :=
  texts.flatMap (fun rs => typeText rs ++ [Msg.key keyEnter])

/-- The selection is within the list: `0` over an empty list, an index of
the list otherwise. -/
def selectionInBounds (m : model) : Prop :=
  (m.storage.Commands = [] → m.selected = 0) ∧
    (m.storage.Commands ≠ [] →
      0 ≤ m.selected ∧ m.selected ≤ (m.storage.Commands.length : Int) - 1)

/-- While values are being collected, the current variable index is an index
of `templateVars` and `templateValues` is an initialised map. -/
def templateIndexValid (m : model) : Prop :=
  m.currentState = state.stateTemplateInput →
    0 ≤ m.currentVarIndex ∧ m.currentVarIndex < (m.templateVars.length : Int) ∧
      m.templateValues ≠ none

/-- The map writes `m[k] = v` for the given pairs, in order. -/
def GoMap.setAll (m : GoMap) (pairs : List (GoString × GoString)) : GoMap :=
  pairs.foldl (fun acc e => acc.set e.1 e.2) m

/-- The state in which the variables of `command` are being collected:
`values` holds the answers given so far and `j` is the index of the variable
prompted for. -/
def collecting (m : model) (command : GoString) (values : GoMap) (j : Nat) : model :=
  { m with currentState := state.stateTemplateInput
           templateVars := ExtractTemplateVars command
           templateValues := some values
           currentVarIndex := (j : Int)
           templateCommand := command
           input := [] }

/-- The state after the last variable has been confirmed: back in the list
mode with the template state discarded. -/
def collected (m : model) : model :=
  { m with currentState := state.stateList
           input := []
           templateVars := []
           templateValues := none
           templateCommand := []
           currentVarIndex := 0 }

/-- A session in list mode over the given records, the first one selected. -/
def sessionOver (commands : List Command) : model :=
  initialModel (Except.ok { Commands := commands })

/-- A session in which the command text `b` has been typed in the
command-entry mode. -/
def enteringCommand (commands : List Command) (b : GoString) : model :=
  { sessionOver commands with currentState := state.stateInput, input := b }

/-! ## `storage.go`: the file behind the store -/

/-- A continuation byte of UTF-8: a byte from 0x80 to 0xBF. -/
def isContinuation (b : Nat) : Bool :=
  0x80 ≤ b ∧ b ≤ 0xBF

/-- Width of the valid UTF-8 sequence the string starts with, as decoded by
`utf8.DecodeRuneInString`, or `0` when the first byte does not start one (the
decoder then returns `RuneError` with width 1).  After a lead byte the second
byte must lie in the range accepted for that lead byte, which excludes
overlong forms, surrogate halves and values above U+10FFFF. -/
def validRuneWidth : GoString → Nat
  | [] => 0
  | b :: s =>
    if b < 0x80 then 1
    else if 0xC2 ≤ b ∧ b ≤ 0xDF then
      match s with
      | c :: _ => if isContinuation c then 2 else 0
      | [] => 0
    else if 0xE0 ≤ b ∧ b ≤ 0xEF then
      match s with
      | c :: d :: _ =>
        if (if b = 0xE0 then 0xA0 else 0x80) ≤ c ∧ c ≤ (if b = 0xED then 0x9F else 0xBF) ∧
            isContinuation d then 3
        else 0
      | _ => 0
    else if 0xF0 ≤ b ∧ b ≤ 0xF4 then
      match s with
      | c :: d :: e :: _ =>
        if (if b = 0xF0 then 0x90 else 0x80) ≤ c ∧ c ≤ (if b = 0xF4 then 0x8F else 0xBF) ∧
            isContinuation d ∧ isContinuation e then 4
        else 0
      | _ => 0
    else 0

/-- The string a JSON document gives back for a Go string: `encoding/json`
writes every valid UTF-8 sequence so that it is read back unchanged, and
writes each byte that does not start a valid sequence as the escape of
U+FFFD, read back as the bytes EF BF BD.  `skip` counts the bytes of the
current valid sequence still to copy. -/
def jsonStringFrom : Nat → GoString → GoString
  | _, [] => []
  | k + 1, b :: s => b :: jsonStringFrom k s
  | 0, b :: s =>
    match validRuneWidth (b :: s) with
    | 0 => 0xEF :: 0xBF :: 0xBD :: jsonStringFrom 0 s
    | w + 1 => b :: jsonStringFrom w s

/-- The storage that `json.Unmarshal` reads back from what
`json.MarshalIndent` wrote for a storage: every string coerced to valid
UTF-8. -/
def jsonRoundTrip (storage : Storage) : Storage :=
  { Commands := storage.Commands.map (fun c =>
      { Command := jsonStringFrom 0 c.Command
        Description := jsonStringFrom 0 c.Description }) }

/-- What reading and parsing the file commands.json yields: the file is
absent, it cannot be read or parsed, or it parses to a storage. -/
inductive FileState where
  | absent
  | unreadable (e : GoError)
  | content (s : Storage)
  deriving DecidableEq, Repr

/-- How `os.WriteFile` fails: when opening the file, which leaves it as it
was, or while writing, when the file has already been truncated. -/
inductive WriteFailure where
  | atOpen (e : GoError)
  | atWrite (e : GoError)
  deriving DecidableEq, Repr

/-- The part of the file system that storage.go depends on: `pathError` is
the failure of `getConfigPath`, if any, `file` is what commands.json holds,
and `writeFailure` is the way `os.WriteFile` fails, if it does. -/
structure Disk where
  pathError : Option GoError
  file : FileState
  writeFailure : Option WriteFailure
  deriving DecidableEq, Repr

/-- The function `LoadCommands` of storage.go: an absent file is an empty
storage, any other failure is returned. -/
def LoadCommands (d : Disk) : Except GoError Storage :=
  match d.pathError with
  | some e => Except.error e
  | none =>
    match d.file with
    | FileState.absent => Except.ok { Commands := [] }
    | FileState.unreadable e => Except.error e
    | FileState.content s => Except.ok s

/-- The function `SaveCommands` of storage.go: the disk afterwards and the
returned error (`none` for nil).  A successful write leaves a file that
parses to the JSON round trip of the storage; a write that fails after the
file was opened leaves a truncated file, which no longer parses. -/
def SaveCommands (d : Disk) (storage : Storage) : Disk × Option GoError :=
  match d.pathError with
  | some e => (d, some e)
  | none =>
    match d.writeFailure with
    | some (WriteFailure.atOpen e) => (d, some e)
    | some (WriteFailure.atWrite e) =>
      ({ d with file := FileState.unreadable (str "unexpected end of JSON input") }, some e)
    | none => ({ d with file := FileState.content (jsonRoundTrip storage) }, none)

/-- The `SaveCommands` calls of a run carried out on the disk, in order; the
returned errors are dropped, as `Update` drops them. -/
def persist (d : Disk) (saved : List Storage) : Disk :=
  saved.foldl (fun acc s => (SaveCommands acc s).1) d

/-- The list that `LoadCommands` reads from the disk, `none` when it
fails. -/
def persistedList (d : Disk) : Option (List Command) :=
  match LoadCommands d with
  | Except.ok s => some s.Commands
  | Except.error _ => none

/-- A disk without commands.json on which nothing fails. -/
def emptyDisk : Disk :=
  { pathError := none, file := FileState.absent, writeFailure := none }

/-- The key event of the backspace key. -/
def keyBackspace : KeyMsg :=
  { Type_ := KeyType.KeyBackspace, Runes := [], Alt := false, Paste := false }

/-- The requests issued and not yet answered: the command texts of the
description requests, and the number of clipboard requests. -/
structure Pending where
  generations : List GoString
  copies : Nat
  deriving DecidableEq, Repr

/-- The bookkeeping of a request returned by `Update`. -/
def Pending.issue (p : Pending) : Option Cmd → Pending
  | some (Cmd.generateDescription c) => { p with generations := p.generations ++ [c] }
  | some (Cmd.copyToClipboard _) => { p with copies := p.copies + 1 }
  | _ => p

/-- The bookkeeping of an incoming event: a generation result answers an
outstanding description request for its command, and `none` is returned when
there is no such request; a copy result answers one clipboard request. -/
def Pending.settle (p : Pending) : Msg → Option Pending
  | Msg.generated g =>
    if g.command ∈ p.generations then
      some { p with generations := p.generations.erase g.command }
    else none
  | Msg.copied _ => some { p with copies := p.copies - 1 }
  | _ => some p

/-- The event loop with the outstanding requests tracked: `none` when a
generation result answers no outstanding description request, or on a
panic. -/
def runPending (m : model) (p : Pending) : List Msg → Option (model × Pending)
  | [] => some (m, p)
  | e :: es =>
    match p.settle e with
    | none => none
    | some p1 =>
      match Update m e with
      | none => none
      | some st => runPending st.next (p1.issue st.cmd) es

/-- Invariant of the tracked loop: at most one description request is
outstanding, and none outside the generating mode. -/
def generationsBounded (m : model) (p : Pending) : Prop :=
  p.generations.length ≤ 1 ∧
    (m.currentState ≠ state.stateGenerating → p.generations = [])

/-- A disk on which every write fails with the error `disk full`. -/
def fullDisk : Disk :=
  { pathError := none, file := FileState.absent
    writeFailure := some (WriteFailure.atWrite (str "disk full")) }

/-- A session waiting for the description of the command text `b`. -/
def awaitingGeneration (commands : List Command) (b : GoString) : model :=
  { sessionOver commands with currentState := state.stateGenerating, input := b }

/-- A session asking for a manual description of the pending command text
`b` after the failure `e`, with `d` typed so far. -/
def describingManually (commands : List Command) (b d : GoString) (e : GoError) : model :=
  { sessionOver commands with currentState := state.stateManualDescription
                              pendingCommand := b
                              input := d
                              err := some e }

/-- What a step does about saving on the disk `d`: the errors returned by its
`SaveCommands` calls, the `err` field of the next state, and the list of the
next state. -/
def saveOutcome (d : Disk) (r : Option Step) :
    Option (List (Option GoError) × Option GoError × List Command) :=
  r.map (fun st =>
    (st.saved.map (fun s => (SaveCommands d s).2), st.next.err, st.next.storage.Commands))

/-! ## Lemmas -/

/-! ### The scan: matches and the pieces between them -/

theorem scan_nil (k : Nat) : scan k [] = [] := by
  cases k <;> rfl

theorem scan_skip (k : Nat) (s : GoString) : scan k s = scan 0 (s.drop k) := by
  induction s generalizing k with
  | nil => simp [scan_nil]
  | cons b s ih =>
    cases k with
    | zero => rfl
    | succ k => simp [scan, ih k]

theorem takeWhile_run {run rest : GoString} (h : 0x7D ∉ run) :
    (run ++ 0x7D :: rest).takeWhile notRBrace = run := by
  induction run with
  | nil => simp [notRBrace]
  | cons a run ih =>
    have ha : a ≠ 0x7D := fun e => h (by simp [e])
    have hr : 0x7D ∉ run := fun e => h (by simp [e])
    simp [List.takeWhile, notRBrace, ha]; simpa [notRBrace] using ih hr

theorem dropWhile_run {run rest : GoString} (h : 0x7D ∉ run) :
    (run ++ 0x7D :: rest).dropWhile notRBrace = 0x7D :: rest := by
  induction run with
  | nil => simp [notRBrace]
  | cons a run ih =>
    have ha : a ≠ 0x7D := fun e => h (by simp [e])
    have hr : 0x7D ∉ run := fun e => h (by simp [e])
    simp [List.dropWhile, notRBrace, ha]; simpa [notRBrace] using ih hr

theorem not_mem_takeWhile (t : GoString) :
    0x7D ∉ t.takeWhile notRBrace := by
  intro h
  have := List.mem_takeWhile_imp h
  simp [notRBrace] at this

theorem matchHere_placeholder {run : GoString} (rest : GoString) (hne : run ≠ [])
    (hrun : 0x7D ∉ run) :
    matchHere (0x7B :: 0x7B :: (run ++ 0x7D :: 0x7D :: rest)) = some (run.length + 4) := by
  unfold matchHere
  simp only [and_self, if_true, takeWhile_run hrun, dropWhile_run hrun, ne_eq, hne,
    not_false_eq_true]

theorem matchHere_some {s : GoString} {n : Nat} (h : matchHere s = some n) :
    ∃ run rest, s = 0x7B :: 0x7B :: (run ++ 0x7D :: 0x7D :: rest) ∧ run ≠ [] ∧
      0x7D ∉ run ∧ n = run.length + 4 := by
  unfold matchHere at h
  split at h
  · rename_i a b t
    split at h
    · rename_i hab
      split at h
      · rename_i c d rest hd
        dsimp only at h
        split at h
        · rename_i hc
          refine ⟨t.takeWhile notRBrace, rest, ?_, hc.1, not_mem_takeWhile t, ?_⟩
          · have ht := List.takeWhile_append_dropWhile notRBrace t
            rw [hd, hc.2.1, hc.2.2] at ht
            rw [hab.1, hab.2, ht]
          · exact (Option.some.inj h).symm
        · exact absurd h (by simp)
      · exact absurd h (by simp)
    · exact absurd h (by simp)
  · exact absurd h (by simp)

theorem matchHere_some_ge {s : GoString} {n : Nat} (h : matchHere s = some n) : 5 ≤ n := by
  obtain ⟨run, rest, -, hne, -, rfl⟩ := matchHere_some h
  have := List.length_pos.mpr hne
  omega

theorem matchHere_head {b : Nat} {s : GoString} (hb : b ≠ 0x7B) : matchHere (b :: s) = none := by
  cases h : matchHere (b :: s) with
  | none => rfl
  | some n =>
    obtain ⟨run, rest, hs, -⟩ := matchHere_some h
    exact absurd (List.cons.inj hs).1 hb

theorem scan_lit {b : Nat} {s : GoString} (h : matchHere (b :: s) = none) :
    scan 0 (b :: s) = Piece.lit b :: scan 0 s := by
  simp [scan, h]

theorem scan_hit {b : Nat} {s : GoString} {n : Nat} (h : matchHere (b :: s) = some n) :
    scan 0 (b :: s) = Piece.hit ((b :: s).take n) :: scan 0 ((b :: s).drop n) := by
  have hn := matchHere_some_ge h
  obtain ⟨k, rfl⟩ : ∃ k, n = k + 1 := ⟨n - 1, by omega⟩
  simp [scan, h, scan_skip k s]
theorem scan_text (k : Nat) (s : GoString) :
    (scan k s).flatMap Piece.text = s.drop k := by
  induction s generalizing k with
  | nil => simp [scan_nil]
  | cons b s ih =>
    cases k with
    | succ k => simp [scan, ih k]
    | zero =>
      cases h : matchHere (b :: s) with
      | none => simp [scan, h, ih 0, Piece.text]
      | some n =>
        have hn := matchHere_some_ge h
        obtain ⟨j, rfl⟩ : ∃ j, n = j + 1 := ⟨n - 1, by omega⟩
        simp [scan, h, ih j, Piece.text]

/-! ### The loop of `ExtractTemplateVars` -/

/-- Invariant of the loop of `ExtractTemplateVars`: `seen` and `vars` hold the same names. -/
theorem extractStep_inv {acc : List GoString × List GoString} (m : List GoString)
    (h : ∀ x, x ∈ acc.1 ↔ x ∈ acc.2) :
    ∀ x, x ∈ (extractStep acc m).1 ↔ x ∈ (extractStep acc m).2 := by
  intro x
  unfold extractStep
  split
  · dsimp only
    split
    · exact h x
    · simp [h x, or_comm]
  · exact h x

theorem extractStep_mono {acc : List GoString × List GoString} (m : List GoString)
    {x : GoString} (h : x ∈ acc.2) : x ∈ (extractStep acc m).2 := by
  unfold extractStep
  split
  · dsimp only
    split
    · exact h
    · simp [h]
  · exact h

theorem foldl_extractStep_mono (ms : List (List GoString)) {acc : List GoString × List GoString}
    {x : GoString} (h : x ∈ acc.2) : x ∈ (ms.foldl extractStep acc).2 := by
  induction ms generalizing acc with
  | nil => exact h
  | cons m ms ih => exact ih (extractStep_mono m h)

theorem foldl_extractStep_mem (ms : List (List GoString)) {acc : List GoString × List GoString}
    (hacc : ∀ x, x ∈ acc.1 ↔ x ∈ acc.2) (whole group : GoString)
    (h : [whole, group] ∈ ms) : TrimSpace group ∈ (ms.foldl extractStep acc).2 := by
  induction ms generalizing acc with
  | nil => simp at h
  | cons m ms ih =>
    rw [List.foldl_cons]
    rcases List.mem_cons.mp h with h | h
    · apply foldl_extractStep_mono
      subst h
      unfold extractStep
      simp only [List.length_cons, List.length_nil, gt_iff_lt, Nat.lt_add_one, Nat.one_lt_ofNat,
        if_true]
      split
      · rename_i hm
        exact (hacc _).mp (by simpa using hm)
      · simp
    · exact ih (extractStep_inv m hacc) h

theorem hit_name_mem {s m : GoString} (h : Piece.hit m ∈ scan 0 s) :
    TrimSpace ((m.drop 2).take (m.length - 4)) ∈ ExtractTemplateVars s := by
  unfold ExtractTemplateVars
  refine foldl_extractStep_mem _ (by simp) m _ ?_
  unfold FindAllStringSubmatch
  rw [List.mem_filterMap]
  exact ⟨Piece.hit m, h, rfl⟩

theorem slice_eq_group (m : GoString) :
    slice m 2 (m.length - 2) = (m.drop 2).take (m.length - 4) := by
  unfold slice
  rw [List.drop_take]
  congr 1

theorem substitute_eq_of_get_none (s : GoString) (v : GoMap)
    (h : ∀ k ∈ ExtractTemplateVars s, v.get k = none) : SubstituteTemplateVars s v = s := by
  have key : (scan 0 s).flatMap (fun p =>
      match p with
      | Piece.hit m => substituteMatch v m
      | Piece.lit b => [b]) = (scan 0 s).flatMap Piece.text := by
    apply List.flatMap_congr  
    intro p hp
    cases p with
    | lit b => rfl
    | hit m =>
      have := h _ (hit_name_mem hp)
      simp only [substituteMatch, Piece.text, slice_eq_group] at this ⊢
      rw [this]
  unfold SubstituteTemplateVars ReplaceAllStringFunc
  rw [key, scan_text]
  rfl
/-! ### `TrimSpace` on a padded name -/

theorem trimLeftFrom_nil (k : Nat) : trimLeftFrom k [] = [] := by
  cases k <;> rfl

theorem trimRightFrom_nil (k : Nat) : trimRightFrom k [] = [] := by
  cases k <;> rfl

theorem trimLeft_of_width_zero {s : GoString} (h : leadingSpaceWidth s = 0) : TrimLeft s = s := by
  cases s with
  | nil => rfl
  | cons b s => simp [TrimLeft, trimLeftFrom, h]

theorem trimRightFrom_of_width_zero {s : GoString} (h : trailingSpaceWidth s = 0) :
    trimRightFrom 0 s = s := by
  cases s with
  | nil => rfl
  | cons b s => simp [trimRightFrom, h]

theorem trimLeft_space_cons (s : GoString) : TrimLeft (0x20 :: s) = TrimLeft s := by
  have : leadingSpaceWidth (0x20 :: s) = 1 := by simp [leadingSpaceWidth, isAsciiSpace]
  simp [TrimLeft, trimLeftFrom, this]

theorem trimRightFrom_space_cons (s : GoString) :
    trimRightFrom 0 (0x20 :: s) = trimRightFrom 0 s := by
  have : trailingSpaceWidth (0x20 :: s) = 1 := by simp [trailingSpaceWidth, isAsciiSpace]
  simp [trimRightFrom, this]

theorem trimLeft_spaces_append {p : GoString} (hp : spacesOnly p) (s : GoString) :
    TrimLeft (p ++ s) = TrimLeft s := by
  induction p with
  | nil => rfl
  | cons a p ih =>
    have ha : a = 0x20 := hp a (by simp)
    subst ha
    rw [List.cons_append, trimLeft_space_cons]
    exact ih (fun b hb => hp b (by simp [hb]))

theorem trimRightFrom_spaces_append {p : GoString} (hp : spacesOnly p) (s : GoString) :
    trimRightFrom 0 (p ++ s) = trimRightFrom 0 s := by
  induction p with
  | nil => rfl
  | cons a p ih =>
    have ha : a = 0x20 := hp a (by simp)
    subst ha
    rw [List.cons_append, trimRightFrom_space_cons]
    exact ih (fun b hb => hp b (by simp [hb]))

theorem leadingSpaceWidth_append_spaces {n q : GoString} (hn : n ≠ [])
    (h : leadingSpaceWidth n = 0) (hq : spacesOnly q) : leadingSpaceWidth (n ++ q) = 0 := by
  cases n with
  | nil => exact absurd rfl hn
  | cons b s =>
    cases s with
    | nil =>
      cases q with
      | nil => simpa using h
      | cons c q =>
        have hc : c = 0x20 := hq c (by simp)
        subst hc
        cases q with
        | nil =>
          simp only [leadingSpaceWidth] at h ⊢
          split at h
          · simp at h
          · rename_i hb; simp [hb]
        | cons d q =>
          have hd : d = 0x20 := hq d (by simp)
          subst hd
          simp only [leadingSpaceWidth] at h ⊢
          split at h
          · simp at h
          · rename_i hb; simp [hb]
    | cons c t =>
      cases t with
      | nil =>
        cases q with
        | nil => simpa using h
        | cons d q =>
          have hd : d = 0x20 := hq d (by simp)
          subst hd
          simp only [leadingSpaceWidth] at h ⊢
          split at h
          · simp at h
          · rename_i hb
            split at h
            · simp at h
            · rename_i hc; simp [hb, hc]
      | cons d t => simpa [leadingSpaceWidth] using h

theorem trimSpace_padded {p n q : GoString} (hp : spacesOnly p) (hq : spacesOnly q)
    (hn : n ≠ []) (ht : noOuterSpace n) : TrimSpace (p ++ n ++ q) = n := by
  unfold TrimSpace
  rw [List.append_assoc, trimLeft_spaces_append hp,
    trimLeft_of_width_zero (leadingSpaceWidth_append_spaces hn ht.1 hq)]
  unfold TrimRight
  have hq' : spacesOnly q.reverse := fun b hb => hq b (List.mem_reverse.mp hb)
  rw [List.reverse_append, trimRightFrom_spaces_append hq', trimRightFrom_of_width_zero ht.2,
    List.reverse_reverse]
/-! ### Well-formed templates -/

theorem scan_literal {g : GoString} (hg : 0x7B ∉ g) (rest : GoString) :
    scan 0 (g ++ rest) = g.map Piece.lit ++ scan 0 rest := by
  induction g with
  | nil => rfl
  | cons b g ih =>
    have hb : b ≠ 0x7B := fun e => hg (by simp [e])
    rw [List.cons_append, scan_lit (matchHere_head hb), ih (fun e => hg (by simp [e]))]
    rfl

theorem Slot.placeholder_eq (sl : Slot) :
    sl.placeholder = 0x7B :: 0x7B :: ((sl.p ++ sl.n ++ sl.q) ++ [0x7D, 0x7D]) := by
  simp [Slot.placeholder, openBraces, closeBraces]

theorem Slot.body_ne_nil {sl : Slot} (h : sl.wellFormed) : sl.p ++ sl.n ++ sl.q ≠ [] := by
  have := h.1
  simp [this]

theorem Slot.body_no_close {sl : Slot} (h : sl.wellFormed) : 0x7D ∉ sl.p ++ sl.n ++ sl.q := by
  obtain ⟨-, hn, -, hp, hq, -⟩ := h
  intro hm
  simp only [List.mem_append] at hm
  rcases hm with (hm | hm) | hm
  · exact absurd (hp _ hm) (by decide)
  · exact hn.2 hm
  · exact absurd (hq _ hm) (by decide)

theorem Slot.placeholder_group (sl : Slot) :
    (sl.placeholder.drop 2).take (sl.placeholder.length - 4) = sl.p ++ sl.n ++ sl.q := by
  rw [Slot.placeholder_eq]
  simp only [List.drop_succ_cons, List.drop_zero, List.length_cons, List.length_append,
    List.length_nil]
  have : (sl.p.length + sl.n.length + sl.q.length + (0 + 1 + 1) + 1 + 1 - 4) =
      (sl.p ++ sl.n ++ sl.q).length := by
    simp only [List.length_append]; omega
  rw [this, List.take_left]

theorem scan_placeholder {sl : Slot} (h : sl.wellFormed) (rest : GoString) :
    scan 0 (sl.placeholder ++ rest) = Piece.hit sl.placeholder :: scan 0 rest := by
  have hm := matchHere_placeholder rest (Slot.body_ne_nil h) (Slot.body_no_close h)
  have he : sl.placeholder ++ rest =
      0x7B :: 0x7B :: ((sl.p ++ sl.n ++ sl.q) ++ 0x7D :: 0x7D :: rest) := by
    rw [Slot.placeholder_eq]; simp
  have hl : sl.placeholder.length = (sl.p ++ sl.n ++ sl.q).length + 4 := by
    rw [Slot.placeholder_eq]; simp; omega
  rw [he, scan_hit hm, ← he, ← hl, List.take_left, List.drop_left]

theorem scan_slots {slots : List Slot} (h : ∀ sl ∈ slots, sl.wellFormed) :
    scan 0 (slots.flatMap (fun sl => sl.placeholder ++ sl.g)) =
      slots.flatMap (fun sl => Piece.hit sl.placeholder :: sl.g.map Piece.lit) := by
  induction slots with
  | nil => rfl
  | cons sl slots ih =>
    have hsl := h sl (by simp)
    have hg : 0x7B ∉ sl.g := hsl.2.2.2.2.2.1
    simp only [List.flatMap_cons, List.append_assoc]
    rw [scan_placeholder hsl, scan_literal hg, ih (fun x hx => h x (by simp [hx]))]
    rfl

theorem scan_template {g0 : GoString} {slots : List Slot} (hg : braceFree g0)
    (h : ∀ sl ∈ slots, sl.wellFormed) :
    scan 0 (template g0 slots) =
      g0.map Piece.lit ++
        slots.flatMap (fun sl => Piece.hit sl.placeholder :: sl.g.map Piece.lit) := by
  unfold template
  rw [scan_literal hg.1, scan_slots h]

theorem flatMap_lit (g : GoString) (f : GoString → GoString) :
    (g.map Piece.lit).flatMap (fun p =>
      match p with
      | Piece.hit m => f m
      | Piece.lit b => [b]) = g := by
  induction g with
  | nil => rfl
  | cons b g ih => simp [List.flatMap_cons, ih]

theorem substituteMatch_placeholder {sl : Slot} (h : sl.wellFormed) (v : GoMap) :
    substituteMatch v sl.placeholder =
      match v.get sl.n with
      | some x => x
      | none => sl.placeholder := by
  unfold substituteMatch
  simp only [slice_eq_group, Slot.placeholder_group,
    trimSpace_padded h.2.2.2.1 h.2.2.2.2.1 h.1 h.2.2.1]

theorem substitute_template_eq (g0 : GoString) (slots : List Slot) (v : GoMap)
    (hg : braceFree g0) (h : ∀ sl ∈ slots, sl.wellFormed) :
    SubstituteTemplateVars (template g0 slots) v =
      g0 ++ slots.flatMap (fun sl =>
        (match v.get sl.n with
          | some x => x
          | none => sl.placeholder) ++ sl.g) := by
  unfold SubstituteTemplateVars ReplaceAllStringFunc
  rw [scan_template hg h, List.flatMap_append, flatMap_lit]
  congr 1
  induction slots with
  | nil => rfl
  | cons sl slots ih =>
    have hsl := h sl (by simp)
    simp only [List.flatMap_cons, List.flatMap_append, List.singleton_append]
    rw [ih (fun x hx => h x (by simp [hx]))]
    simp only [List.flatMap_cons, flatMap_lit, substituteMatch_placeholder hsl]
theorem findAll_template {g0 : GoString} {slots : List Slot} (hg : braceFree g0)
    (h : ∀ sl ∈ slots, sl.wellFormed) :
    FindAllStringSubmatch (template g0 slots) =
      slots.map (fun sl => [sl.placeholder, sl.p ++ sl.n ++ sl.q]) := by
  unfold FindAllStringSubmatch
  rw [scan_template hg h, List.filterMap_append]
  have h0 : (g0.map Piece.lit).filterMap (fun p =>
      match p with
      | Piece.hit m => some [m, (m.drop 2).take (m.length - 4)]
      | Piece.lit _ => none) = [] := by
    induction g0 with
    | nil => rfl
    | cons b g ih => simp [List.filterMap_cons]
  rw [h0, List.nil_append]
  clear h0 hg
  induction slots with
  | nil => rfl
  | cons sl slots ih =>
    have hl : ∀ g : GoString, (g.map Piece.lit).filterMap (fun p =>
        match p with
        | Piece.hit m => some [m, (m.drop 2).take (m.length - 4)]
        | Piece.lit _ => none) = [] := by
      intro g
      induction g with
      | nil => rfl
      | cons b g ih => simp [List.filterMap_cons]
    simp only [List.flatMap_cons, List.filterMap_append, List.filterMap_cons, List.map_cons,
      List.cons_append, hl, List.nil_append, Slot.placeholder_group]
    rw [ih (fun x hx => h x (by simp [hx]))]

theorem foldl_extractStep_slots (slots : List Slot) (h : ∀ sl ∈ slots, sl.wellFormed)
    (acc : List GoString × List GoString) :
    ((slots.map (fun sl => [sl.placeholder, sl.p ++ sl.n ++ sl.q])).foldl extractStep acc).2 =
      acc.2 ++ (firstOccurrences (slots.map Slot.n)).filter (fun x => x ∉ acc.1) := by
  induction slots generalizing acc with
  | nil => simp [firstOccurrences]
  | cons sl slots ih =>
    have hsl := h sl (by simp)
    have ih' := ih (fun x hx => h x (by simp [hx]))
    have hstep : extractStep acc [sl.placeholder, sl.p ++ sl.n ++ sl.q] =
        if sl.n ∈ acc.1 then acc else (sl.n :: acc.1, acc.2 ++ [sl.n]) := by
      have ht := trimSpace_padded hsl.2.2.2.1 hsl.2.2.2.2.1 hsl.1 hsl.2.2.1
      simp only [List.append_assoc] at ht
      simp [extractStep, ht]
    simp only [List.map_cons, List.foldl_cons, hstep, firstOccurrences]
    split
    · rename_i hmem
      rw [ih']
      congr 1
      rw [List.filter_cons]
      simp only [hmem, not_true_eq_false, decide_False, Bool.false_eq_true, if_false,
        List.filter_filter]
      apply List.filter_congr
      intro x _
      by_cases hx : x ∈ acc.1
      · simp [hx]
      · have : x ≠ sl.n := fun e => hx (e ▸ hmem)
        simp [hx, this]
    · rename_i hmem
      rw [ih']
      rw [List.filter_cons]
      simp only [hmem, not_false_eq_true, decide_True, if_true, List.filter_filter,
        List.append_assoc, List.singleton_append]
      congr 2
      apply List.filter_congr
      intro x _
      by_cases hx : x = sl.n
      · simp [hx]
      · simp [hx]

theorem extract_template_eq (g0 : GoString) (slots : List Slot)
    (hg : braceFree g0) (h : ∀ sl ∈ slots, sl.wellFormed) :
    ExtractTemplateVars (template g0 slots) = firstOccurrences (slots.map Slot.n) := by
  unfold ExtractTemplateVars
  rw [findAll_template hg h, foldl_extractStep_slots slots h]
  simp
/-! ### No placeholder is left after a substitution with plain values -/

theorem replaceAll_nil (f : GoString → GoString) : ReplaceAllStringFunc [] f = [] := rfl

theorem replaceAll_lit {b : Nat} {s : GoString} (f : GoString → GoString)
    (h : matchHere (b :: s) = none) :
    ReplaceAllStringFunc (b :: s) f = b :: ReplaceAllStringFunc s f := by
  unfold ReplaceAllStringFunc
  rw [scan_lit h]
  rfl

theorem replaceAll_hit {b : Nat} {s : GoString} {n : Nat} (f : GoString → GoString)
    (h : matchHere (b :: s) = some n) :
    ReplaceAllStringFunc (b :: s) f =
      f ((b :: s).take n) ++ ReplaceAllStringFunc ((b :: s).drop n) f := by
  unfold ReplaceAllStringFunc
  rw [scan_hit h]
  rfl

theorem plainOn_lit {f : GoString → GoString} {b : Nat} {s : GoString}
    (h : matchHere (b :: s) = none) (hp : plainOn f (b :: s)) : plainOn f s := by
  intro m hm
  exact hp m (by rw [scan_lit h]; exact List.mem_cons_of_mem _ hm)

theorem plainOn_hit {f : GoString → GoString} {b : Nat} {s : GoString} {n : Nat}
    (h : matchHere (b :: s) = some n) (hp : plainOn f (b :: s)) :
    (f ((b :: s).take n) ≠ [] ∧ braceFree (f ((b :: s).take n))) ∧
      plainOn f ((b :: s).drop n) := by
  refine ⟨hp _ (by rw [scan_hit h]; exact List.mem_cons_self _ _), ?_⟩
  intro m hm
  exact hp m (by rw [scan_hit h]; exact List.mem_cons_of_mem _ hm)

theorem replaceAll_head_close {f : GoString → GoString} {s rest : GoString}
    (hp : plainOn f s) (h : ReplaceAllStringFunc s f = 0x7D :: rest) :
    ∃ s', s = 0x7D :: s' := by
  cases s with
  | nil => simp [replaceAll_nil] at h
  | cons b s =>
    cases hm : matchHere (b :: s) with
    | none =>
      rw [replaceAll_lit f hm] at h
      exact ⟨s, by rw [(List.cons.inj h).1]⟩
    | some n =>
      rw [replaceAll_hit f hm] at h
      obtain ⟨⟨hne, hbf⟩, -⟩ := plainOn_hit hm hp
      cases hv : f ((b :: s).take n) with
      | nil => exact absurd hv hne
      | cons a w =>
        rw [hv] at h hbf
        have : a = 0x7D := (List.cons.inj h).1
        exact absurd (by simp [this]) hbf.2

theorem replaceAll_head_open {f : GoString → GoString} {s rest : GoString}
    (hp : plainOn f s) (h : ReplaceAllStringFunc s f = 0x7B :: rest) :
    ∃ s', s = 0x7B :: s' ∧ matchHere s = none ∧ rest = ReplaceAllStringFunc s' f := by
  cases s with
  | nil => simp [replaceAll_nil] at h
  | cons b s =>
    cases hm : matchHere (b :: s) with
    | none =>
      rw [replaceAll_lit f hm] at h
      obtain ⟨h1, h2⟩ := List.cons.inj h
      exact ⟨s, by rw [h1], rfl, h2.symm⟩
    | some n =>
      rw [replaceAll_hit f hm] at h
      obtain ⟨⟨hne, hbf⟩, -⟩ := plainOn_hit hm hp
      cases hv : f ((b :: s).take n) with
      | nil => exact absurd hv hne
      | cons a w =>
        rw [hv] at h hbf
        have : a = 0x7B := (List.cons.inj h).1
        exact absurd (by simp [this]) hbf.1

theorem closing_of_replaceAll {f : GoString → GoString} {s : GoString}
    (hp : plainOn f s) (h : closing (ReplaceAllStringFunc s f)) : closing s := by
  induction s with
  | nil =>
    obtain ⟨run, rest, h, -⟩ := h
    simp [replaceAll_nil] at h
  | cons b s ih =>
    cases hm : matchHere (b :: s) with
    | none =>
      rw [replaceAll_lit f hm] at h
      obtain ⟨run, rest, h, hrun⟩ := h
      cases run with
      | nil =>
        obtain ⟨h1, h2⟩ := List.cons.inj h
        obtain ⟨s', hs'⟩ := replaceAll_head_close (plainOn_lit hm hp) h2
        exact ⟨[], s', by rw [h1, hs']; rfl, by simp⟩
      | cons a run =>
        obtain ⟨h1, h2⟩ := List.cons.inj h
        obtain ⟨run', rest', hs', hrun'⟩ :=
          ih (plainOn_lit hm hp) ⟨run, rest, h2, fun e => hrun (by simp [e])⟩
        refine ⟨b :: run', rest', by rw [hs']; rfl, ?_⟩
        intro e
        rcases List.mem_cons.mp e with e | e
        · exact hrun (by rw [← h1, ← e]; exact List.mem_cons_self _ _)
        · exact hrun' e
    | some n =>
      obtain ⟨run, rest, hs, -, hrun, -⟩ := matchHere_some hm
      refine ⟨0x7B :: 0x7B :: run, rest, by rw [hs]; rfl, ?_⟩
      simp [hrun]

theorem replaceAll_no_match {f : GoString → GoString} (s : GoString) (hp : plainOn f s) :
    ∀ i, matchHere ((ReplaceAllStringFunc s f).drop i) = none := by
  suffices H : ∀ (len : Nat) (s : GoString), s.length = len → plainOn f s →
      ∀ i, matchHere ((ReplaceAllStringFunc s f).drop i) = none from H _ s rfl hp
  intro len
  induction len using Nat.strong_induction_on with
  | _ len ih =>
    intro s hlen hp
    cases s with
    | nil => intro i; simp [replaceAll_nil, matchHere]
    | cons b s =>
      cases hm : matchHere (b :: s) with
      | none =>
        have hps := plainOn_lit hm hp
        rw [replaceAll_lit f hm]
        intro i
        cases i with
        | succ j =>
          rw [List.drop_succ_cons]
          exact ih s.length (by rw [← hlen]; simp) s rfl hps j
        | zero =>
          rw [List.drop_zero]
          cases hr : matchHere (b :: ReplaceAllStringFunc s f) with
          | none => rfl
          | some n =>
            exfalso
            obtain ⟨run, rest, he, hne, hrun, -⟩ := matchHere_some hr
            obtain ⟨hb, he⟩ := List.cons.inj he
            obtain ⟨s', hs', hms, hrest⟩ := replaceAll_head_open hps he
            have hps' : plainOn f s' := by
              rw [hs'] at hms hps
              exact plainOn_lit hms hps
            obtain ⟨run2, rest2, hs2, hrun2⟩ :=
              closing_of_replaceAll hps' ⟨run, rest, hrest.symm, hrun⟩
            cases run2 with
            | nil =>
              rw [hs2, List.nil_append,
                replaceAll_lit f (matchHere_head (by decide))] at hrest
              cases run with
              | nil => exact hne rfl
              | cons a run =>
                have : a = 0x7D := (List.cons.inj hrest).1
                exact hrun (by simp [this])
            | cons a run2 =>
              have := matchHere_placeholder rest2 (List.cons_ne_nil a run2) hrun2
              rw [← hs2, ← hs', ← hb, hm] at this
              exact absurd this (by simp)
      | some n =>
        obtain ⟨⟨hne, hbf⟩, hps⟩ := plainOn_hit hm hp
        have hn := matchHere_some_ge hm
        rw [replaceAll_hit f hm]
        intro i
        by_cases hi : i < (f ((b :: s).take n)).length
        · rw [List.drop_append_of_le_length (Nat.le_of_lt hi)]
          cases hd : (f ((b :: s).take n)).drop i with
          | nil =>
            have := congrArg List.length hd
            simp at this
            omega
          | cons a w =>
            have ha : a ∈ f ((b :: s).take n) := List.mem_of_mem_drop (by rw [hd]; simp)
            rw [List.cons_append]
            exact matchHere_head (fun e => hbf.1 (e ▸ ha))
        · have hi' : (f ((b :: s).take n)).length ≤ i := Nat.le_of_not_lt hi
          obtain ⟨j, rfl⟩ : ∃ j, i = (f ((b :: s).take n)).length + j :=
            ⟨i - (f ((b :: s).take n)).length, by omega⟩
          rw [List.drop_append]
          exact ih ((b :: s).drop n).length (by rw [← hlen]; simp; omega) _ rfl hps j

theorem scan_of_no_match (t : GoString) (h : ∀ i, matchHere (t.drop i) = none) :
    scan 0 t = t.map Piece.lit := by
  induction t with
  | nil => rfl
  | cons b t ih =>
    rw [scan_lit (h 0), ih (fun i => h (i + 1))]
    rfl
theorem GoMap.mem_of_get {v : GoMap} {k x : GoString} (h : v.get k = some x) : (k, x) ∈ v := by
  induction v with
  | nil => simp [GoMap.get] at h
  | cons e v ih =>
    obtain ⟨k', y⟩ := e
    unfold GoMap.get at h
    split at h
    · rename_i hk
      have := Option.some.inj h
      simp [hk, this]
    · exact List.mem_cons_of_mem _ (ih h)

theorem plainOn_substituteMatch {s : GoString} {v : GoMap}
    (hk : ∀ k ∈ ExtractTemplateVars s, v.hasKey k) (hv : v.plainValues) :
    plainOn (substituteMatch v) s := by
  intro m hm
  have hmem := hk _ (hit_name_mem hm)
  unfold GoMap.hasKey at hmem
  unfold substituteMatch
  simp only [slice_eq_group]
  cases hg : v.get (TrimSpace ((m.drop 2).take (m.length - 4))) with
  | none => simp [hg] at hmem
  | some x => exact hv _ (GoMap.mem_of_get hg)

theorem substitute_no_match {s : GoString} {v : GoMap}
    (hk : ∀ k ∈ ExtractTemplateVars s, v.hasKey k) (hv : v.plainValues) :
    scan 0 (SubstituteTemplateVars s v) = (SubstituteTemplateVars s v).map Piece.lit :=
  scan_of_no_match _ (replaceAll_no_match s (plainOn_substituteMatch hk hv))

theorem substitute_of_no_match {t : GoString} (v : GoMap) (h : scan 0 t = t.map Piece.lit) :
    SubstituteTemplateVars t v = t := by
  unfold SubstituteTemplateVars ReplaceAllStringFunc
  rw [h, flatMap_lit]

theorem extract_of_no_match {t : GoString} (h : scan 0 t = t.map Piece.lit) :
    ExtractTemplateVars t = [] := by
  unfold ExtractTemplateVars FindAllStringSubmatch
  rw [h]
  have : (t.map Piece.lit).filterMap (fun p =>
      match p with
      | Piece.hit m => some [m, (m.drop 2).take (m.length - 4)]
      | Piece.lit _ => none) = [] := by
    induction t with
    | nil => rfl
    | cons b g ih => simp [List.filterMap_cons]
  rw [this]
  rfl

theorem substitute_idem_plain (s : GoString) (v : GoMap)
    (hk : ∀ k ∈ ExtractTemplateVars s, v.hasKey k) (hv : v.plainValues) :
    SubstituteTemplateVars (SubstituteTemplateVars s v) v = SubstituteTemplateVars s v :=
  substitute_of_no_match v (substitute_no_match hk hv)

/-! ### Invariants of `Update` -/

theorem selectionInBounds_iff (m : model) :
    selectionInBounds m ↔
      (0 ≤ m.selected ∧ (m.selected < (m.storage.Commands.length : Int) ∨
        (m.selected = 0 ∧ m.storage.Commands.length = 0))) := by
  unfold selectionInBounds
  cases h : m.storage.Commands with
  | nil => simp; omega
  | cons a l => simp; omega

theorem index_some {α : Type} {l : List α} {i : Int} (h0 : 0 ≤ i) (h1 : i < (l.length : Int)) :
    ∃ x, index l i = some x := by
  unfold index
  rw [if_pos h0]
  have : i.toNat < l.length := by omega
  exact ⟨l[i.toNat], List.getElem?_eq_getElem this⟩

theorem not_templateInput_valid {m : model} (h : m.currentState ≠ state.stateTemplateInput) :
    templateIndexValid m :=
  fun e => absurd e h

theorem updateList_preserves {m : model} (k : KeyMsg)
    (hs : selectionInBounds m) (hm : m.currentState = state.stateList) :
    ∃ st, updateList m k = some st ∧ selectionInBounds st.next ∧
      templateIndexValid st.next := by
  have hs' := (selectionInBounds_iff m).mp hs
  have hne : m.currentState ≠ state.stateTemplateInput := by rw [hm]; decide
  have ht : templateIndexValid m := not_templateInput_valid hne
  unfold updateList
  dsimp only
  by_cases h1 : k.String = str "ctrl+c" ∨ k.String = str "q"
  · rw [if_pos h1]
    exact ⟨_, rfl, hs, ht⟩
  rw [if_neg h1]
  by_cases h2 : k.String = str "up" ∨ k.String = str "k"
  · rw [if_pos h2]
    refine ⟨_, rfl, ?_, not_templateInput_valid ?_⟩
    · rw [selectionInBounds_iff]
      dsimp only
      split <;> (try dsimp only) <;> omega
    · split <;> exact hne
  rw [if_neg h2]
  by_cases h3 : k.String = str "down" ∨ k.String = str "j"
  · rw [if_pos h3]
    refine ⟨_, rfl, ?_, not_templateInput_valid ?_⟩
    · rw [selectionInBounds_iff]
      dsimp only
      split <;> (try dsimp only) <;> omega
    · split <;> exact hne
  rw [if_neg h3]
  by_cases h4 : k.String = str "n"
  · rw [if_pos h4]
    exact ⟨_, rfl, hs, not_templateInput_valid (by simp)⟩
  rw [if_neg h4]
  by_cases h5 : k.String = str "c" ∨ k.String = str "enter"
  · rw [if_pos h5]
    by_cases h6 : m.storage.Commands.length > 0
    · rw [if_pos h6]
      obtain ⟨rec, hrec⟩ := index_some (l := m.storage.Commands) hs'.1 (by omega)
      rw [hrec]
      dsimp only
      by_cases h7 : (ExtractTemplateVars rec.Command).length > 0
      · rw [if_pos h7]
        refine ⟨_, rfl, hs, ?_⟩
        intro _
        dsimp only
        refine ⟨le_refl _, by omega, by simp⟩
      · rw [if_neg h7]
        exact ⟨_, rfl, hs, ht⟩
    · rw [if_neg h6]
      exact ⟨_, rfl, hs, ht⟩
  rw [if_neg h5]
  by_cases h8 : k.String = str "d"
  · rw [if_pos h8]
    by_cases h6 : m.storage.Commands.length > 0
    · rw [if_pos h6]
      have h9 : 0 ≤ m.selected ∧ m.selected + 1 ≤ (m.storage.Commands.length : Int) := by omega
      rw [if_pos h9]
      refine ⟨_, rfl, ?_, not_templateInput_valid hne⟩
      rw [selectionInBounds_iff]
      dsimp only
      simp only [List.length_append, List.length_take, List.length_drop]
      split <;> omega
    · rw [if_neg h6]
      exact ⟨_, rfl, hs, ht⟩
  rw [if_neg h8]
  exact ⟨_, rfl, hs, ht⟩
theorem updateInput_preserves {m : model} (k : KeyMsg)
    (hs : selectionInBounds m) (hm : m.currentState = state.stateInput) :
    ∃ st, updateInput m k = some st ∧ selectionInBounds st.next ∧
      templateIndexValid st.next := by
  have hne : m.currentState ≠ state.stateTemplateInput := by rw [hm]; decide
  unfold updateInput
  cases k.Type_ <;> dsimp only
  case KeyEnter =>
    split
    · exact ⟨_, rfl, hs, not_templateInput_valid (by simp)⟩
    · exact ⟨_, rfl, hs, not_templateInput_valid hne⟩
  case KeyEsc => exact ⟨_, rfl, hs, not_templateInput_valid (by simp)⟩
  case KeyCtrlC => exact ⟨_, rfl, hs, not_templateInput_valid (by simp)⟩
  all_goals exact ⟨_, rfl, hs, not_templateInput_valid hne⟩

theorem updateManualDescription_preserves {m : model} (k : KeyMsg)
    (hs : selectionInBounds m) (hm : m.currentState = state.stateManualDescription) :
    ∃ st, updateManualDescription m k = some st ∧ selectionInBounds st.next ∧
      templateIndexValid st.next := by
  have hne : m.currentState ≠ state.stateTemplateInput := by rw [hm]; decide
  unfold updateManualDescription
  cases k.Type_ <;> dsimp only
  case KeyEnter =>
    split
    · refine ⟨_, rfl, ?_, not_templateInput_valid (by simp)⟩
      rw [selectionInBounds_iff]
      simp only [List.length_append, List.length_singleton]
      omega
    · exact ⟨_, rfl, hs, not_templateInput_valid hne⟩
  case KeyEsc => exact ⟨_, rfl, hs, not_templateInput_valid (by simp)⟩
  case KeyCtrlC => exact ⟨_, rfl, hs, not_templateInput_valid (by simp)⟩
  all_goals exact ⟨_, rfl, hs, not_templateInput_valid hne⟩

theorem updateTemplateInput_preserves {m : model} (k : KeyMsg)
    (hs : selectionInBounds m) (ht : templateIndexValid m)
    (hm : m.currentState = state.stateTemplateInput) :
    ∃ st, updateTemplateInput m k = some st ∧ selectionInBounds st.next ∧
      templateIndexValid st.next := by
  obtain ⟨h0, h1, h2⟩ := ht hm
  unfold updateTemplateInput
  cases k.Type_ <;> dsimp only
  case KeyEnter =>
    obtain ⟨x, hx⟩ := index_some h0 h1
    rw [hx]
    dsimp only
    cases hv : m.templateValues with
    | none => exact absurd hv h2
    | some values =>
      dsimp only
      split
      · exact ⟨_, rfl, hs, not_templateInput_valid (by simp)⟩
      · rename_i hlt
        refine ⟨_, rfl, hs, ?_⟩
        intro _
        dsimp only
        refine ⟨by omega, by omega, by simp⟩
  case KeyEsc => exact ⟨_, rfl, hs, not_templateInput_valid (by simp)⟩
  case KeyCtrlC => exact ⟨_, rfl, hs, not_templateInput_valid (by simp)⟩
  all_goals exact ⟨_, rfl, hs, fun _ => ⟨h0, h1, h2⟩⟩

theorem updateGenerated_preserves {m : model} (g : generatedMsg) (hs : selectionInBounds m) :
    ∃ st, updateGenerated m g = some st ∧ selectionInBounds st.next ∧
      templateIndexValid st.next := by
  unfold updateGenerated
  cases g.err with
  | some e => exact ⟨_, rfl, hs, not_templateInput_valid (by simp)⟩
  | none =>
    refine ⟨_, rfl, ?_, not_templateInput_valid (by simp)⟩
    rw [selectionInBounds_iff]
    simp only [List.length_append, List.length_singleton]
    omega

theorem updateCopied_preserves {m : model} (c : copiedMsg) (hs : selectionInBounds m)
    (ht : templateIndexValid m) :
    ∃ st, updateCopied m c = some st ∧ selectionInBounds st.next ∧
      templateIndexValid st.next := by
  unfold updateCopied
  split
  · exact ⟨_, rfl, hs, ht⟩
  · exact ⟨_, rfl, hs, ht⟩

theorem Update_preserves {m : model} (e : Msg) (hs : selectionInBounds m)
    (ht : templateIndexValid m) :
    ∃ st, Update m e = some st ∧ selectionInBounds st.next ∧ templateIndexValid st.next := by
  cases e with
  | key k =>
    unfold Update
    dsimp only
    cases hm : m.currentState <;> dsimp only
    · exact updateList_preserves k hs hm
    · exact updateInput_preserves k hs hm
    · exact ⟨_, rfl, hs, ht⟩
    · exact updateTemplateInput_preserves k hs ht hm
    · exact updateManualDescription_preserves k hs hm
  | generated g => exact updateGenerated_preserves g hs
  | copied c => exact updateCopied_preserves c hs ht
  | other => exact ⟨_, rfl, hs, ht⟩

theorem run_preserves {m : model} (es : List Msg) (hs : selectionInBounds m)
    (ht : templateIndexValid m) :
    ∃ t, run m es = some t ∧ selectionInBounds t.final ∧ templateIndexValid t.final := by
  induction es generalizing m with
  | nil => exact ⟨_, rfl, hs, ht⟩
  | cons e es ih =>
    obtain ⟨st, hst, hs', ht'⟩ := Update_preserves e hs ht
    obtain ⟨t, hrun, hs2, ht2⟩ := ih hs' ht'
    exact ⟨⟨t.final, st.cmd.toList ++ t.cmds, st.saved ++ t.saved⟩,
      by simp only [run, hst, hrun], hs2, ht2⟩

theorem initialModel_valid (loaded : Except GoError Storage) :
    selectionInBounds (initialModel loaded) ∧ templateIndexValid (initialModel loaded) := by
  constructor
  · rw [selectionInBounds_iff]
    cases loaded with
    | error e => simp [initialModel]
    | ok st =>
      show (0 : Int) ≤ 0 ∧ ((0 : Int) < (st.Commands.length : Int) ∨
        ((0 : Int) = 0 ∧ st.Commands.length = 0))
      omega
  · exact not_templateInput_valid (by simp [initialModel])
/-! ### The event loop -/

theorem run_cons (m : model) (e : Msg) (es : List Msg) :
    run m (e :: es) =
      match Update m e with
      | none => none
      | some st =>
        match run st.next es with
        | none => none
        | some t => some { final := t.final, cmds := st.cmd.toList ++ t.cmds
                           saved := st.saved ++ t.saved } := rfl

theorem run_append (m : model) (es1 es2 : List Msg) :
    run m (es1 ++ es2) =
      match run m es1 with
      | none => none
      | some t1 =>
        match run t1.final es2 with
        | none => none
        | some t2 => some { final := t2.final, cmds := t1.cmds ++ t2.cmds
                            saved := t1.saved ++ t2.saved } := by
  induction es1 generalizing m with
  | nil =>
    simp only [List.nil_append, run]
    cases run m es2 <;> simp
  | cons e es ih =>
    rw [List.cons_append, run_cons, run_cons]
    cases Update m e with
    | none => rfl
    | some st =>
      dsimp only
      rw [ih]
      cases run st.next es with
      | none => rfl
      | some t1 =>
        dsimp only
        cases run t1.final es2 with
        | none => rfl
        | some t2 => simp

theorem run_typeText_template (m : model) (rs : List Int)
    (h : m.currentState = state.stateTemplateInput) :
    run m (typeText rs) =
      some { final := { m with input := m.input ++ encodeRunes rs }, cmds := [], saved := [] } := by
  induction rs generalizing m with
  | nil => simp [typeText, run, encodeRunes]
  | cons r rs ih =>
    have hstep : Update m (Msg.key (keyRunes [r])) =
        some { next := { m with input := m.input ++ encodeRune r }, cmd := none, saved := [] } := by
      simp [Update, h, updateTemplateInput, keyRunes, editInput, encodeRunes]
    have := ih { m with input := m.input ++ encodeRune r } h
    simp only [typeText, List.map_cons, run, hstep] at this ⊢
    rw [this]
    simp [encodeRunes]

theorem run_typeText_manual (m : model) (rs : List Int)
    (h : m.currentState = state.stateManualDescription) :
    run m (typeText rs) =
      some { final := { m with input := m.input ++ encodeRunes rs }, cmds := [], saved := [] } := by
  induction rs generalizing m with
  | nil => simp [typeText, run, encodeRunes]
  | cons r rs ih =>
    have hstep : Update m (Msg.key (keyRunes [r])) =
        some { next := { m with input := m.input ++ encodeRune r }, cmd := none, saved := [] } := by
      simp [Update, h, updateManualDescription, keyRunes, editInput, encodeRunes]
    have := ih { m with input := m.input ++ encodeRune r } h
    simp only [typeText, List.map_cons, run, hstep] at this ⊢
    rw [this]
    simp [encodeRunes]
/-! ### Collecting the values of the variables -/

theorem index_append_length {α : Type} (done : List α) (v : α) (rest : List α) :
    index (done ++ v :: rest) (done.length : Int) = some v := by
  unfold index
  rw [if_pos (Int.ofNat_nonneg _), Int.toNat_ofNat, List.getElem?_append_right (le_refl _)]
  simp

theorem Update_collecting_enter (m : model) (c : GoString) (M : GoMap) (t : GoString)
    (done : List GoString) (v : GoString) (rest : List GoString)
    (hv : ExtractTemplateVars c = done ++ v :: rest) :
    Update { collecting m c M done.length with input := t } (Msg.key keyEnter) =
      if rest = [] then
        some { next := collected m
               cmd := some (Cmd.copyToClipboard (SubstituteTemplateVars c (M.set v t)))
               saved := [] }
      else
        some { next := collecting m c (M.set v t) (done.length + 1), cmd := none, saved := [] } := by
  have hidx : index (ExtractTemplateVars c) (done.length : Int) = some v := by
    rw [hv]; exact index_append_length done v rest
  simp only [Update, collecting, updateTemplateInput, keyEnter, hidx]
  have hlen : ((ExtractTemplateVars c).length : Int) = done.length + 1 + rest.length := by
    rw [hv]; simp; omega
  by_cases hr : rest = []
  · subst hr
    have : (done.length : Int) + 1 ≥ ((ExtractTemplateVars c).length : Int) := by
      rw [hlen]; simp
    simp only [this, if_true, collected]
  · have hpos : 0 < rest.length := List.length_pos.mpr hr
    have : ¬ ((done.length : Int) + 1 ≥ ((ExtractTemplateVars c).length : Int)) := by
      rw [hlen]; omega
    simp only [this, if_false, hr]
    rfl

theorem run_collecting_answer (m : model) (c : GoString) (M : GoMap) (rs : List Int)
    (done : List GoString) (v : GoString) (rest : List GoString)
    (hv : ExtractTemplateVars c = done ++ v :: rest) :
    run (collecting m c M done.length) (typeText rs ++ [Msg.key keyEnter]) =
      if rest = [] then
        some { final := collected m
               cmds := [Cmd.copyToClipboard
                 (SubstituteTemplateVars c (M.set v (encodeRunes rs)))]
               saved := [] }
      else
        some { final := collecting m c (M.set v (encodeRunes rs)) (done.length + 1)
               cmds := [], saved := [] } := by
  rw [run_append, run_typeText_template _ _ rfl]
  dsimp only
  rw [run_cons]
  have := Update_collecting_enter m c M (encodeRunes rs) done v rest hv
  simp only [collecting, List.nil_append] at this ⊢
  rw [this]
  by_cases hr : rest = []
  · simp [hr, run]
  · simp [hr, run, collecting]
theorem answer_cons (rs : List Int) (texts : List (List Int)) :
    answer (rs :: texts) = (typeText rs ++ [Msg.key keyEnter]) ++ answer texts := by
  simp [answer]

theorem run_collecting_prefix (m : model) (c : GoString) (texts : List (List Int)) :
    ∀ (M : GoMap) (done vs : List GoString), ExtractTemplateVars c = done ++ vs →
      texts.length < vs.length →
      run (collecting m c M done.length) (answer texts) =
        some { final := collecting m c (M.setAll (vs.zip (texts.map encodeRunes)))
                 (done.length + texts.length)
               cmds := [], saved := [] } := by
  induction texts with
  | nil =>
    intro M done vs _ _
    simp [answer, run, GoMap.setAll]
  | cons rs texts ih =>
    intro M done vs hv hlen
    cases vs with
    | nil => simp at hlen
    | cons v rest =>
      have hrest : rest ≠ [] := by
        intro e; subst e; simp at hlen
      rw [answer_cons, run_append, run_collecting_answer m c M rs done v rest hv, if_neg hrest]
      dsimp only
      have hv' : ExtractTemplateVars c = (done ++ [v]) ++ rest := by rw [hv]; simp
      have := ih (M.set v (encodeRunes rs)) (done ++ [v]) rest hv'
        (by simp at hlen; omega)
      simp only [List.length_append, List.length_singleton] at this
      rw [this]
      simp [GoMap.setAll, Nat.add_assoc, Nat.add_comm 1]

theorem run_collecting_all (m : model) (c : GoString) (texts : List (List Int)) :
    ∀ (M : GoMap) (done vs : List GoString), ExtractTemplateVars c = done ++ vs →
      vs ≠ [] → texts.length = vs.length →
      run (collecting m c M done.length) (answer texts) =
        some { final := collected m
               cmds := [Cmd.copyToClipboard
                 (SubstituteTemplateVars c (M.setAll (vs.zip (texts.map encodeRunes))))]
               saved := [] } := by
  induction texts with
  | nil =>
    intro M done vs _ hne hlen
    exact absurd (List.length_eq_zero.mp hlen.symm) hne
  | cons rs texts ih =>
    intro M done vs hv _ hlen
    cases vs with
    | nil => simp at hlen
    | cons v rest =>
      rw [answer_cons, run_append, run_collecting_answer m c M rs done v rest hv]
      by_cases hrest : rest = []
      · subst hrest
        have : texts = [] := List.length_eq_zero.mp (by simpa using hlen)
        subst this
        simp [answer, run, GoMap.setAll]
      · rw [if_neg hrest]
        dsimp only
        have hv' : ExtractTemplateVars c = (done ++ [v]) ++ rest := by rw [hv]; simp
        have := ih (M.set v (encodeRunes rs)) (done ++ [v]) rest hv' hrest
          (by simpa using hlen)
        simp only [List.length_append, List.length_singleton] at this
        rw [this]
        simp [GoMap.setAll]

theorem index_length_pos {α : Type} {l : List α} {i : Int} {x : α} (h : index l i = some x) :
    l.length > 0 := by
  unfold index at h
  split at h
  · have := (List.getElem?_eq_some.mp h).1
    omega
  · exact absurd h (by simp)

theorem updateList_copy (m : model) (k : KeyMsg) (hk : isCopyKey k) :
    updateList m k =
      if m.storage.Commands.length > 0 then
        match index m.storage.Commands m.selected with
        | none => none
        | some rec =>
          if (ExtractTemplateVars rec.Command).length > 0 then
            some { next := collecting m rec.Command [] 0, cmd := none, saved := [] }
          else
            some { next := m, cmd := some (Cmd.copyToClipboard rec.Command), saved := [] }
      else some { next := m, cmd := none, saved := [] } := by
  have h1 : ¬ (k.String = str "ctrl+c" ∨ k.String = str "q") := by
    rcases hk with h | h <;> rw [h] <;> decide
  have h2 : ¬ (k.String = str "up" ∨ k.String = str "k") := by
    rcases hk with h | h <;> rw [h] <;> decide
  have h3 : ¬ (k.String = str "down" ∨ k.String = str "j") := by
    rcases hk with h | h <;> rw [h] <;> decide
  have h4 : ¬ (k.String = str "n") := by
    rcases hk with h | h <;> rw [h] <;> decide
  unfold updateList
  dsimp only
  have h5 : k.String = str "c" ∨ k.String = str "enter" := hk
  rw [if_neg h1, if_neg h2, if_neg h3, if_neg h4, if_pos h5]
  rfl
/-! ### Maps -/

theorem GoMap.get_filter_ne (M : GoMap) {k k' : GoString} (h : k' ≠ k) :
    GoMap.get (M.filter (fun e => e.1 ≠ k)) k' = M.get k' := by
  induction M with
  | nil => rfl
  | cons e M ih =>
    obtain ⟨a, b⟩ := e
    by_cases ha : a = k
    · have : k' ≠ a := by rw [ha]; exact h
      simpa [List.filter_cons, ha, GoMap.get, this, h] using ih
    · by_cases hk : k' = a
      · simp [List.filter_cons, ha, GoMap.get, hk]
      · simpa [List.filter_cons, ha, GoMap.get, hk] using ih

theorem GoMap.get_set (M : GoMap) (k v k' : GoString) :
    (M.set k v).get k' = if k' = k then some v else M.get k' := by
  unfold GoMap.set
  by_cases h : k' = k
  · simp [GoMap.get, h]
  · simp only [GoMap.get, h, if_false]
    exact GoMap.get_filter_ne M h

theorem GoMap.get_of_not_key {pairs : GoMap} {k : GoString} (h : k ∉ pairs.map Prod.fst) :
    GoMap.get pairs k = none := by
  induction pairs with
  | nil => rfl
  | cons e pairs ih =>
    obtain ⟨a, b⟩ := e
    have ha : k ≠ a := fun e => h (by simp [e])
    simp only [GoMap.get, ha, if_false]
    exact ih (fun e => h (by simp at e ⊢; exact Or.inr e))

theorem GoMap.get_setAll (pairs : GoMap) (hn : (pairs.map Prod.fst).Nodup) (M : GoMap)
    (k : GoString) :
    (M.setAll pairs).get k =
      match GoMap.get pairs k with
      | some x => some x
      | none => M.get k := by
  induction pairs generalizing M with
  | nil => rfl
  | cons e pairs ih =>
    obtain ⟨a, b⟩ := e
    simp only [List.map_cons, List.nodup_cons] at hn
    have := ih hn.2 (M.set a b)
    simp only [GoMap.setAll, List.foldl_cons] at this ⊢
    rw [this, GoMap.get_set]
    by_cases hk : k = a
    · subst hk
      simp [GoMap.get, GoMap.get_of_not_key hn.1]
    · simp only [GoMap.get, hk, if_false]

theorem substitute_congr (c : GoString) {M N : GoMap} (h : ∀ k, M.get k = N.get k) :
    SubstituteTemplateVars c M = SubstituteTemplateVars c N := by
  have : substituteMatch M = substituteMatch N := by
    funext m
    simp only [substituteMatch, h]
  unfold SubstituteTemplateVars
  rw [this]

theorem extractStep_nodup {acc : List GoString × List GoString} (m : List GoString)
    (h : ∀ x, x ∈ acc.1 ↔ x ∈ acc.2) (hn : acc.2.Nodup) : (extractStep acc m).2.Nodup := by
  unfold extractStep
  split
  · dsimp only
    split
    · exact hn
    · rename_i hm
      dsimp only
      rw [List.nodup_append]
      refine ⟨hn, List.nodup_singleton _, ?_⟩
      intro x hx hx'
      rw [List.mem_singleton] at hx'
      subst hx'
      exact hm ((h _).mpr hx)
  · exact hn

theorem foldl_extractStep_nodup (ms : List (List GoString))
    {acc : List GoString × List GoString}
    (h : ∀ x, x ∈ acc.1 ↔ x ∈ acc.2) (hn : acc.2.Nodup) :
    (ms.foldl extractStep acc).2.Nodup := by
  induction ms generalizing acc with
  | nil => exact hn
  | cons m ms ih => exact ih (extractStep_inv m h) (extractStep_nodup m h hn)

theorem extract_nodup (c : GoString) : (ExtractTemplateVars c).Nodup :=
  foldl_extractStep_nodup _ (by simp) List.nodup_nil

theorem substitute_setAll_zip (c : GoString) {vars : List GoString} (hn : vars.Nodup)
    (ts : List GoString) (hlen : vars.length ≤ ts.length) :
    SubstituteTemplateVars c (GoMap.setAll [] (vars.zip ts)) =
      SubstituteTemplateVars c (vars.zip ts) := by
  apply substitute_congr
  intro k
  have hkeys : ((vars.zip ts).map Prod.fst).Nodup :=
    by rw [List.map_fst_zip _ _ hlen]; exact hn
  rw [GoMap.get_setAll _ hkeys]
  cases GoMap.get (vars.zip ts) k <;> rfl
/-! ### Single transitions -/

theorem extract_of_no_open {c : GoString} (h : ¬ [0x7B, 0x7B] <:+: c) :
    ExtractTemplateVars c = [] := by
  apply extract_of_no_match
  apply scan_of_no_match
  intro i
  cases hm : matchHere (c.drop i) with
  | none => rfl
  | some n =>
    exfalso
    obtain ⟨run, rest, hs, -⟩ := matchHere_some hm
    apply h
    refine ⟨c.take i, run ++ 0x7D :: 0x7D :: rest, ?_⟩
    have := List.take_append_drop i c
    rw [hs] at this
    simpa using this

theorem Update_copy_key (m : model) (k : KeyMsg) (rec : Command)
    (hstate : m.currentState = state.stateList) (hk : isCopyKey k)
    (hsel : index m.storage.Commands m.selected = some rec) :
    Update m (Msg.key k) =
      if (ExtractTemplateVars rec.Command).length > 0 then
        some { next := collecting m rec.Command [] 0, cmd := none, saved := [] }
      else
        some { next := m, cmd := some (Cmd.copyToClipboard rec.Command), saved := [] } := by
  simp only [Update, hstate]
  rw [updateList_copy m k hk, if_pos (index_length_pos hsel), hsel]

theorem Update_confirm_input (m : model) (k : KeyMsg)
    (hstate : m.currentState = state.stateInput) (hb : m.input ≠ [])
    (hk : k.Type_ = KeyType.KeyEnter) :
    Update m (Msg.key k) =
      some { next := { m with currentState := state.stateGenerating }
             cmd := some (Cmd.generateDescription m.input), saved := [] } := by
  simp only [Update, hstate, updateInput, hk, hb, ne_eq, not_false_eq_true, if_true]

theorem Update_confirm_manual (m : model) (k : KeyMsg)
    (hstate : m.currentState = state.stateManualDescription) (hb : m.input ≠ [])
    (hk : k.Type_ = KeyType.KeyEnter) :
    Update m (Msg.key k) =
      some { next := { m with storage := { Commands := m.storage.Commands ++
                                  [{ Command := m.pendingCommand, Description := m.input }] }
                              currentState := state.stateList
                              selected := (m.storage.Commands.length : Int)
                              input := []
                              pendingCommand := []
                              err := none }
             cmd := none
             saved := [{ Commands := m.storage.Commands ++
                          [{ Command := m.pendingCommand, Description := m.input }] }] } := by
  simp only [Update, hstate, updateManualDescription, hk, hb, ne_eq, not_false_eq_true, if_true]
  simp

/-! ### What a step saves and which requests it issues -/

theorem updateList_facts {m : model} {k : KeyMsg} {st : Step}
    (h : updateList m k = some st) :
    ((st.saved = [] ∧ st.next.storage = m.storage) ∨
      (st.saved = [st.next.storage] ∧
        st.next.storage.Commands.length ≠ m.storage.Commands.length)) ∧
    (∀ c, st.cmd ≠ some (Cmd.generateDescription c)) ∧
    (∀ t, st.cmd = some (Cmd.copyToClipboard t) → isCopyKey k) ∧
    (m.currentState = state.stateList → st.next.currentState ≠ state.stateGenerating) := by
  unfold updateList at h
  dsimp only at h
  by_cases h1 : k.String = str "ctrl+c" ∨ k.String = str "q"
  · rw [if_pos h1] at h
    cases Option.some.inj h
    exact ⟨Or.inl ⟨rfl, rfl⟩, by simp, by simp, fun hm => by simp [hm]⟩
  rw [if_neg h1] at h
  by_cases h2 : k.String = str "up" ∨ k.String = str "k"
  · rw [if_pos h2] at h
    cases Option.some.inj h
    refine ⟨Or.inl ⟨rfl, ?_⟩, by simp, by simp, fun hm => ?_⟩
    · dsimp only; split <;> rfl
    · dsimp only; split <;> simp [hm]
  rw [if_neg h2] at h
  by_cases h3 : k.String = str "down" ∨ k.String = str "j"
  · rw [if_pos h3] at h
    cases Option.some.inj h
    refine ⟨Or.inl ⟨rfl, ?_⟩, by simp, by simp, fun hm => ?_⟩
    · dsimp only; split <;> rfl
    · dsimp only; split <;> simp [hm]
  rw [if_neg h3] at h
  by_cases h4 : k.String = str "n"
  · rw [if_pos h4] at h
    cases Option.some.inj h
    exact ⟨Or.inl ⟨rfl, rfl⟩, by simp, by simp, fun _ => by simp⟩
  rw [if_neg h4] at h
  by_cases h5 : k.String = str "c" ∨ k.String = str "enter"
  · rw [if_pos h5] at h
    by_cases h6 : m.storage.Commands.length > 0
    · rw [if_pos h6] at h
      cases hrec : index m.storage.Commands m.selected with
      | none => rw [hrec] at h; exact absurd h (by simp)
      | some rec =>
        rw [hrec] at h
        dsimp only at h
        by_cases h7 : (ExtractTemplateVars rec.Command).length > 0
        · rw [if_pos h7] at h
          cases Option.some.inj h
          exact ⟨Or.inl ⟨rfl, rfl⟩, by simp, by simp, fun _ => by simp⟩
        · rw [if_neg h7] at h
          cases Option.some.inj h
          exact ⟨Or.inl ⟨rfl, rfl⟩, by simp, fun _ _ => h5, fun hm => by simp [hm]⟩
    · rw [if_neg h6] at h
      cases Option.some.inj h
      exact ⟨Or.inl ⟨rfl, rfl⟩, by simp, by simp, fun hm => by simp [hm]⟩
  rw [if_neg h5] at h
  by_cases h8 : k.String = str "d"
  · rw [if_pos h8] at h
    by_cases h6 : m.storage.Commands.length > 0
    · rw [if_pos h6] at h
      by_cases h9 : 0 ≤ m.selected ∧ m.selected + 1 ≤ (m.storage.Commands.length : Int)
      · rw [if_pos h9] at h
        cases Option.some.inj h
        refine ⟨Or.inr ⟨rfl, ?_⟩, by simp, by simp, fun hm => by simp [hm]⟩
        simp only [List.length_append, List.length_take, List.length_drop]
        omega
      · rw [if_neg h9] at h
        exact absurd h (by simp)
    · rw [if_neg h6] at h
      cases Option.some.inj h
      exact ⟨Or.inl ⟨rfl, rfl⟩, by simp, by simp, fun hm => by simp [hm]⟩
  rw [if_neg h8] at h
  cases Option.some.inj h
  exact ⟨Or.inl ⟨rfl, rfl⟩, by simp, by simp, fun hm => by simp [hm]⟩
theorem updateInput_facts {m : model} {k : KeyMsg} {st : Step}
    (h : updateInput m k = some st) :
    (st.saved = [] ∧ st.next.storage = m.storage) ∧
    (∀ c, st.cmd = some (Cmd.generateDescription c) →
      st.next.currentState = state.stateGenerating) ∧
    (∀ t, st.cmd ≠ some (Cmd.copyToClipboard t)) ∧
    (st.cmd = none → st.next.currentState ≠ state.stateGenerating ∨
      st.next.currentState = m.currentState) := by
  unfold updateInput at h
  cases hT : k.Type_ <;> rw [hT] at h <;> dsimp only at h
  case KeyEnter =>
    split at h
    · cases Option.some.inj h
      exact ⟨⟨rfl, rfl⟩, fun _ _ => rfl, by simp, by simp⟩
    · cases Option.some.inj h
      exact ⟨⟨rfl, rfl⟩, by simp, by simp, fun _ => Or.inr rfl⟩
  case KeyEsc =>
    cases Option.some.inj h
    exact ⟨⟨rfl, rfl⟩, by simp, by simp, fun _ => Or.inl (by simp)⟩
  case KeyCtrlC =>
    cases Option.some.inj h
    exact ⟨⟨rfl, rfl⟩, by simp, by simp, fun _ => Or.inl (by simp)⟩
  all_goals
    cases Option.some.inj h
    exact ⟨⟨rfl, rfl⟩, by simp, by simp, fun _ => Or.inr rfl⟩

theorem updateTemplateInput_facts {m : model} {k : KeyMsg} {st : Step}
    (h : updateTemplateInput m k = some st) :
    (st.saved = [] ∧ st.next.storage = m.storage) ∧
    (∀ c, st.cmd ≠ some (Cmd.generateDescription c)) ∧
    (∀ t, st.cmd = some (Cmd.copyToClipboard t) → k.Type_ = KeyType.KeyEnter) ∧
    (st.next.currentState ≠ state.stateGenerating ∨
      st.next.currentState = m.currentState) := by
  unfold updateTemplateInput at h
  cases hT : k.Type_ <;> rw [hT] at h <;> dsimp only at h
  case KeyEnter =>
    cases hi : index m.templateVars m.currentVarIndex with
    | none => rw [hi] at h; exact absurd h (by simp)
    | some v =>
      rw [hi] at h
      dsimp only at h
      cases hv : m.templateValues with
      | none => rw [hv] at h; exact absurd h (by simp)
      | some values =>
        rw [hv] at h
        dsimp only at h
        split at h
        · cases Option.some.inj h
          exact ⟨⟨rfl, rfl⟩, by simp, fun _ _ => rfl, Or.inl (by simp)⟩
        · cases Option.some.inj h
          exact ⟨⟨rfl, rfl⟩, by simp, by simp, Or.inr rfl⟩
  case KeyEsc =>
    cases Option.some.inj h
    exact ⟨⟨rfl, rfl⟩, by simp, by simp, Or.inl (by simp)⟩
  case KeyCtrlC =>
    cases Option.some.inj h
    exact ⟨⟨rfl, rfl⟩, by simp, by simp, Or.inl (by simp)⟩
  all_goals
    cases Option.some.inj h
    exact ⟨⟨rfl, rfl⟩, by simp, by simp, Or.inr rfl⟩

theorem updateManualDescription_facts {m : model} {k : KeyMsg} {st : Step}
    (h : updateManualDescription m k = some st) :
    ((st.saved = [] ∧ st.next.storage = m.storage) ∨
      (st.saved = [st.next.storage] ∧
        st.next.storage.Commands.length ≠ m.storage.Commands.length)) ∧
    st.cmd = none ∧
    (st.next.currentState ≠ state.stateGenerating ∨
      st.next.currentState = m.currentState) := by
  unfold updateManualDescription at h
  cases hT : k.Type_ <;> rw [hT] at h <;> dsimp only at h
  case KeyEnter =>
    split at h
    · cases Option.some.inj h
      exact ⟨Or.inr ⟨rfl, by simp⟩, rfl, Or.inl (by simp)⟩
    · cases Option.some.inj h
      exact ⟨Or.inl ⟨rfl, rfl⟩, rfl, Or.inr rfl⟩
  case KeyEsc =>
    cases Option.some.inj h
    exact ⟨Or.inl ⟨rfl, rfl⟩, rfl, Or.inl (by simp)⟩
  case KeyCtrlC =>
    cases Option.some.inj h
    exact ⟨Or.inl ⟨rfl, rfl⟩, rfl, Or.inl (by simp)⟩
  all_goals
    cases Option.some.inj h
    exact ⟨Or.inl ⟨rfl, rfl⟩, rfl, Or.inr rfl⟩

theorem updateGenerated_facts {m : model} {g : generatedMsg} {st : Step}
    (h : updateGenerated m g = some st) :
    ((st.saved = [] ∧ st.next.storage = m.storage) ∨
      (st.saved = [st.next.storage] ∧
        st.next.storage.Commands.length ≠ m.storage.Commands.length)) ∧
    st.cmd = none ∧ st.next.currentState ≠ state.stateGenerating ∧
    st.next.copyMessage = m.copyMessage := by
  unfold updateGenerated at h
  cases he : g.err with
  | some e =>
    rw [he] at h
    cases Option.some.inj h
    exact ⟨Or.inl ⟨rfl, rfl⟩, rfl, by simp, rfl⟩
  | none =>
    rw [he] at h
    cases Option.some.inj h
    exact ⟨Or.inr ⟨rfl, by simp⟩, rfl, by simp, rfl⟩

theorem updateCopied_facts {m : model} {c : copiedMsg} {st : Step}
    (h : updateCopied m c = some st) :
    (st.saved = [] ∧ st.next.storage = m.storage) ∧ st.cmd = none ∧
      st.next.currentState = m.currentState := by
  unfold updateCopied at h
  split at h
  · cases Option.some.inj h
    exact ⟨⟨rfl, rfl⟩, rfl, rfl⟩
  · cases Option.some.inj h
    exact ⟨⟨rfl, rfl⟩, rfl, rfl⟩

/-- What one step of `Update` can do to the store and which requests it can
issue. -/
theorem Update_facts {m : model} {e : Msg} {st : Step} (h : Update m e = some st) :
    ((st.saved = [] ∧ st.next.storage = m.storage) ∨
      (st.saved = [st.next.storage] ∧
        st.next.storage.Commands.length ≠ m.storage.Commands.length)) ∧
    (∀ c, st.cmd = some (Cmd.generateDescription c) →
      m.currentState = state.stateInput ∧ st.next.currentState = state.stateGenerating ∧
        ∃ k, e = Msg.key k) ∧
    (∀ t, st.cmd = some (Cmd.copyToClipboard t) →
      ∃ k, e = Msg.key k ∧
        ((m.currentState = state.stateList ∧ isCopyKey k) ∨
          (m.currentState = state.stateTemplateInput ∧ k.Type_ = KeyType.KeyEnter))) ∧
    ((∃ g, e = Msg.generated g) →
      st.cmd = none ∧ st.next.currentState ≠ state.stateGenerating) ∧
    (m.currentState = state.stateGenerating → (∀ g, e ≠ Msg.generated g) →
      st.next.currentState = state.stateGenerating ∧ st.cmd = none) := by
  cases e with
  | key k =>
    unfold Update at h
    dsimp only at h
    cases hm : m.currentState <;> rw [hm] at h <;> dsimp only at h
    · obtain ⟨f1, f2, f3, f4⟩ := updateList_facts h
      exact ⟨f1, fun c hc => absurd hc (f2 c), fun t ht => ⟨k, rfl, Or.inl ⟨rfl, f3 t ht⟩⟩,
        (fun ⟨g, hg⟩ => by cases hg), (fun hgen => by cases hgen)⟩
    · obtain ⟨f1, f2, f3, -⟩ := updateInput_facts h
      exact ⟨Or.inl f1, fun c hc => ⟨rfl, f2 c hc, k, rfl⟩, fun t ht => absurd ht (f3 t),
        (fun ⟨g, hg⟩ => by cases hg), (fun hgen => by cases hgen)⟩
    · cases Option.some.inj h
      exact ⟨Or.inl ⟨rfl, rfl⟩, by simp, by simp, (fun ⟨g, hg⟩ => by cases hg),
        fun _ _ => ⟨hm, rfl⟩⟩
    · obtain ⟨f1, f2, f3, -⟩ := updateTemplateInput_facts h
      exact ⟨Or.inl f1, fun c hc => absurd hc (f2 c),
        fun t ht => ⟨k, rfl, Or.inr ⟨rfl, f3 t ht⟩⟩,
        (fun ⟨g, hg⟩ => by cases hg), (fun hgen => by cases hgen)⟩
    · obtain ⟨f1, f2, -⟩ := updateManualDescription_facts h
      exact ⟨f1, by simp [f2], by simp [f2],
        (fun ⟨g, hg⟩ => by cases hg), (fun hgen => by cases hgen)⟩
  | generated g =>
    obtain ⟨f1, f2, f3, -⟩ := updateGenerated_facts h
    exact ⟨f1, by simp [f2], by simp [f2], fun _ => ⟨f2, f3⟩,
      fun _ hne => absurd rfl (hne g)⟩
  | copied c =>
    obtain ⟨f1, f2, f3⟩ := updateCopied_facts h
    exact ⟨Or.inl f1, by simp [f2], by simp [f2], (fun ⟨g, hg⟩ => by cases hg),
      fun hgen _ => ⟨f3.trans hgen, f2⟩⟩
  | other =>
    cases Option.some.inj h
    exact ⟨Or.inl ⟨rfl, rfl⟩, by simp, by simp, (fun ⟨g, hg⟩ => by cases hg),
      fun hgen _ => ⟨hgen, rfl⟩⟩

theorem persist_append (d : Disk) (a b : List Storage) :
    persist d (a ++ b) = persist (persist d a) b := by
  simp [persist, List.foldl_append]

/-- On a disk where nothing fails, what is read back after the saves of a run
is the list in memory, verbatim as long as nothing was saved and through the
JSON round trip once something was. -/
theorem run_persist (events : List Msg) :
    ∀ (m : model) (d : Disk), selectionInBounds m → templateIndexValid m →
      d.pathError = none → d.writeFailure = none →
      (LoadCommands d = Except.ok m.storage ∨
        LoadCommands d = Except.ok (jsonRoundTrip m.storage)) →
      ∃ t, run m events = some t ∧
        (LoadCommands (persist d t.saved) = Except.ok t.final.storage ∨
          LoadCommands (persist d t.saved) = Except.ok (jsonRoundTrip t.final.storage)) := by
  induction events with
  | nil =>
    intro m d _ _ _ _ hl
    exact ⟨_, rfl, hl⟩
  | cons e es ih =>
    intro m d hs ht hp hw hl
    obtain ⟨st, hst, hs1, ht1⟩ := Update_preserves e hs ht
    have hd : (persist d st.saved).pathError = none ∧
        (persist d st.saved).writeFailure = none ∧
        (LoadCommands (persist d st.saved) = Except.ok st.next.storage ∨
          LoadCommands (persist d st.saved) = Except.ok (jsonRoundTrip st.next.storage)) := by
      rcases (Update_facts hst).1 with ⟨h1, h2⟩ | ⟨h1, -⟩
      · rw [h1, h2]
        exact ⟨hp, hw, hl⟩
      · rw [h1]
        refine ⟨?_, ?_, Or.inr ?_⟩ <;> simp [persist, SaveCommands, hp, hw, LoadCommands]
    obtain ⟨t, hrun, hload⟩ := ih st.next (persist d st.saved) hs1 ht1 hd.1 hd.2.1 hd.2.2
    refine ⟨⟨t.final, st.cmd.toList ++ t.cmds, st.saved ++ t.saved⟩, ?_, ?_⟩
    · simp only [run, hst, hrun]
    · rw [persist_append]
      exact hload

/-- When the load succeeds, no save fails and every string of the list in
memory is valid UTF-8 (the JSON round trip leaves the list unchanged), the
list read back from the disk after a run is the list in memory. -/
theorem run_persist_valid (d : Disk) (s0 : Storage) (events : List Msg)
    (hp : d.pathError = none) (hw : d.writeFailure = none)
    (hl : LoadCommands d = Except.ok s0) :
    ∃ t, run (initialModel (LoadCommands d)) events = some t ∧
      (jsonRoundTrip t.final.storage = t.final.storage →
        LoadCommands (persist d t.saved) = Except.ok t.final.storage) := by
  have hv := initialModel_valid (LoadCommands d)
  have h0 : LoadCommands d = Except.ok (initialModel (LoadCommands d)).storage := by
    rw [hl]
    rfl
  obtain ⟨t, hrun, hload⟩ := run_persist events _ d hv.1 hv.2 hp hw (Or.inl h0)
  refine ⟨t, hrun, fun hvalid => ?_⟩
  rcases hload with h | h
  · exact h
  · rw [h, hvalid]

theorem generationsBounded_step {m : model} {p p1 : Pending} {e : Msg} {st : Step}
    (hK : generationsBounded m p) (hsettle : p.settle e = some p1)
    (hst : Update m e = some st) : generationsBounded st.next (p1.issue st.cmd) := by
  obtain ⟨-, fgen, -, fres, fstay⟩ := Update_facts hst
  by_cases hg : ∃ g, e = Msg.generated g
  · obtain ⟨g, rfl⟩ := hg
    obtain ⟨hcmd, hnext⟩ := fres ⟨g, rfl⟩
    simp only [Pending.settle] at hsettle
    split at hsettle
    · rename_i hmem
      cases Option.some.inj hsettle
      have hlen : (p.generations.erase g.command).length = 0 := by
        rw [List.length_erase_of_mem hmem]
        have := hK.1
        omega
      have hnil : p.generations.erase g.command = [] := List.length_eq_zero.mp hlen
      rw [hcmd]
      simp only [Pending.issue, generationsBounded, hnil]
      simp
    · exact absurd hsettle (by simp)
  · have hne : ∀ g, e ≠ Msg.generated g := fun g he => hg ⟨g, he⟩
    have hp1 : p1.generations = p.generations := by
      cases e with
      | generated g => exact absurd rfl (hne g)
      | key k =>
        simp only [Pending.settle] at hsettle
        cases Option.some.inj hsettle
        rfl
      | other =>
        simp only [Pending.settle] at hsettle
        cases Option.some.inj hsettle
        rfl
      | copied c =>
        simp only [Pending.settle] at hsettle
        cases Option.some.inj hsettle
        rfl
    cases hc : st.cmd with
    | none =>
      simp only [Pending.issue, generationsBounded, hp1]
      refine ⟨hK.1, fun hnext => hK.2 (fun hm => hnext (fstay hm hne).1)⟩
    | some c =>
      cases c with
      | Quit =>
        simp only [Pending.issue, generationsBounded, hp1]
        refine ⟨hK.1, fun hnext => hK.2 (fun hm => hnext (fstay hm hne).1)⟩
      | copyToClipboard t =>
        simp only [Pending.issue, generationsBounded, hp1]
        refine ⟨hK.1, fun hnext => hK.2 (fun hm => hnext (fstay hm hne).1)⟩
      | generateDescription b =>
        obtain ⟨hm, hnext, -⟩ := fgen b hc
        have hnil : p.generations = [] := hK.2 (by rw [hm]; decide)
        simp only [Pending.issue, generationsBounded, hp1, hnil]
        exact ⟨by simp, fun h => absurd hnext h⟩

theorem runPending_bounded (events : List Msg) :
    ∀ (m : model) (p : Pending) (r : model × Pending), generationsBounded m p →
      runPending m p events = some r → generationsBounded r.1 r.2 := by
  induction events with
  | nil =>
    intro m p r hK h
    cases Option.some.inj h
    exact hK
  | cons e es ih =>
    intro m p r hK h
    simp only [runPending] at h
    cases hsettle : p.settle e with
    | none => rw [hsettle] at h; exact absurd h (by simp)
    | some p1 =>
      rw [hsettle] at h
      dsimp only at h
      cases hst : Update m e with
      | none => rw [hst] at h; exact absurd h (by simp)
      | some st =>
        rw [hst] at h
        exact ih _ _ r (generationsBounded_step hK hsettle hst) h
theorem scan_single {n : GoString} (hne : n ≠ []) (hn : 0x7D ∉ n) :
    scan 0 (openBraces ++ n ++ closeBraces) = [Piece.hit (openBraces ++ n ++ closeBraces)] := by
  have hm := matchHere_placeholder [] hne hn
  have he : openBraces ++ n ++ closeBraces = 0x7B :: 0x7B :: (n ++ [0x7D, 0x7D]) := by
    simp [openBraces, closeBraces]
  have hl : (openBraces ++ n ++ closeBraces).length = n.length + 4 := by
    simp [openBraces, closeBraces]
  rw [he, scan_hit hm, ← he, ← hl, List.take_length, List.drop_length]
  rfl

theorem single_group (n : GoString) :
    ((openBraces ++ n ++ closeBraces).drop 2).take ((openBraces ++ n ++ closeBraces).length - 4) =
      n := by
  have : (openBraces ++ n ++ closeBraces).length - 4 = n.length := by
    simp [openBraces, closeBraces]
  rw [this]
  simp [openBraces, closeBraces]

theorem trimSpace_of_noOuterSpace {n : GoString} (hne : n ≠ []) (ht : noOuterSpace n) :
    TrimSpace n = n := by
  have := trimSpace_padded (p := []) (q := []) (fun _ h => absurd h (List.not_mem_nil _))
    (fun _ h => absurd h (List.not_mem_nil _)) hne ht
  simpa using this

theorem extract_single {n : GoString} (hne : n ≠ []) (ht : noOuterSpace n) (hn : 0x7D ∉ n) :
    ExtractTemplateVars (openBraces ++ n ++ closeBraces) = [n] := by
  unfold ExtractTemplateVars FindAllStringSubmatch
  rw [scan_single hne hn]
  simp only [List.filterMap_cons, List.filterMap_nil, single_group, List.foldl_cons,
    List.foldl_nil]
  simp [extractStep, trimSpace_of_noOuterSpace hne ht]

theorem substitute_single {n : GoString} (hne : n ≠ []) (ht : noOuterSpace n) (hn : 0x7D ∉ n)
    (x : GoString) :
    SubstituteTemplateVars (openBraces ++ n ++ closeBraces) [(n, x)] = x := by
  unfold SubstituteTemplateVars ReplaceAllStringFunc
  rw [scan_single hne hn]
  simp only [List.flatMap_cons, List.flatMap_nil, List.append_nil, substituteMatch,
    slice_eq_group, single_group, trimSpace_of_noOuterSpace hne ht]
  simp [GoMap.get]

/-! ## The claims -/

/-- Claim C1. On a well-formed template, built from literal segments without
braces and placeholders whose names are non-empty, free of braces and of outer
white space and padded with spaces only, `SubstituteTemplateVars` keeps every
literal segment and replaces each placeholder by the value of its name when
the name is a key of the map, and leaves the placeholder text unchanged
otherwise. -/
theorem substitute_wellformed_template (g0 : GoString) (slots : List Slot) (v : GoMap)
    (hg : braceFree g0) (h : ∀ sl ∈ slots, sl.wellFormed) :
    SubstituteTemplateVars (template g0 slots) v =
      g0 ++ slots.flatMap (fun sl =>
        (match v.get sl.n with
          | some x => x
          | none => sl.placeholder) ++ sl.g) :=
  substitute_template_eq g0 slots v hg h

/-- Witness for C1: in `git clone {{ repo }} {{dest}}!` with only `repo`
given, the first placeholder is replaced and the second is kept. -/
theorem substitute_wellformed_template_witness :
    template (str "git clone ")
        [⟨str " ", str "repo", str " ", str " "⟩, ⟨[], str "dest", [], str "!"⟩] =
      str "git clone " ++ openBraces ++ str " repo " ++ closeBraces ++ str " " ++ ph "dest" ++
        str "!" ∧
    SubstituteTemplateVars
        (template (str "git clone ")
          [⟨str " ", str "repo", str " ", str " "⟩, ⟨[], str "dest", [], str "!"⟩])
        [(str "repo", str "URL")] =
      str "git clone URL " ++ ph "dest" ++ str "!" :=
  ⟨by decide,
    (substitute_wellformed_template (str "git clone ")
      [⟨str " ", str "repo", str " ", str " "⟩, ⟨[], str "dest", [], str "!"⟩]
      [(str "repo", str "URL")] (by decide) (by decide)).trans (by decide)⟩

/-- Claim C2. On a well-formed template `ExtractTemplateVars` returns the
names of the placeholders in order, every later repetition of an
already-listed name removed; on a template without placeholders it returns
the empty sequence. -/
theorem extract_wellformed_template (g0 : GoString) (slots : List Slot)
    (hg : braceFree g0) (h : ∀ sl ∈ slots, sl.wellFormed) :
    ExtractTemplateVars (template g0 slots) = firstOccurrences (slots.map Slot.n) ∧
      ExtractTemplateVars (template g0 []) = [] :=
  ⟨extract_template_eq g0 slots hg h,
    extract_template_eq g0 [] hg (fun _ hsl => absurd hsl (List.not_mem_nil _))⟩

/-- Witness for C2: `echo {{x}} {{ y }}{{x}}` yields `x` then `y`. -/
theorem extract_wellformed_template_witness :
    ExtractTemplateVars
        (template (str "echo ")
          [⟨[], str "x", [], str " "⟩, ⟨str " ", str "y", str " ", []⟩, ⟨[], str "x", [], []⟩]) =
      [str "x", str "y"] :=
  (extract_wellformed_template (str "echo ")
    [⟨[], str "x", [], str " "⟩, ⟨str " ", str "y", str " ", []⟩, ⟨[], str "x", [], []⟩]
    (by decide) (by decide)).1.trans (by decide)

/-- Claim C3. For every command text whatsoever and every map none of whose
keys is a name returned by `ExtractTemplateVars` for that text, and in
particular for the empty map, `SubstituteTemplateVars` returns the text
unchanged. -/
theorem substitute_verbatim_fallback (s : GoString) (v : GoMap)
    (h : ∀ k ∈ ExtractTemplateVars s, ¬ v.hasKey k) :
    SubstituteTemplateVars s v = s ∧ SubstituteTemplateVars s [] = s := by
  constructor
  · apply substitute_eq_of_get_none
    intro k hk
    have := h k hk
    unfold GoMap.hasKey at this
    cases hg : v.get k with
    | none => rfl
    | some x => simp [hg] at this
  · exact substitute_eq_of_get_none s [] (fun _ _ => rfl)

/-- Witness for C3: the unbalanced text `a {{missing}}}}` with a map that only knows `other`. -/
theorem substitute_verbatim_fallback_witness :
    SubstituteTemplateVars (str "a " ++ ph "missing" ++ closeBraces)
        [(str "other", str "x")] =
      str "a " ++ ph "missing" ++ closeBraces :=
  (substitute_verbatim_fallback (str "a " ++ ph "missing" ++ closeBraces)
    [(str "other", str "x")] (by decide)).1

/-- Counterexample to C4 as stated: in `echo {{a}} {{b}}` with `a` mapped to
the text `{{b}}` and `b` mapped to `x`, every name of the command is a key of
the map, the first substitution gives `echo {{b}} x` and the second gives
`echo x x`. -/
theorem substitute_not_idempotent :
    (∀ k ∈ ExtractTemplateVars (str "echo " ++ ph "a" ++ str " " ++ ph "b"),
        GoMap.hasKey [(str "a", ph "b"), (str "b", str "x")] k) ∧
      SubstituteTemplateVars (str "echo " ++ ph "a" ++ str " " ++ ph "b")
          [(str "a", ph "b"), (str "b", str "x")] =
        str "echo " ++ ph "b" ++ str " x" ∧
      SubstituteTemplateVars
          (SubstituteTemplateVars (str "echo " ++ ph "a" ++ str " " ++ ph "b")
            [(str "a", ph "b"), (str "b", str "x")])
          [(str "a", ph "b"), (str "b", str "x")] =
        str "echo x x" ∧
      SubstituteTemplateVars
          (SubstituteTemplateVars (str "echo " ++ ph "a" ++ str " " ++ ph "b")
            [(str "a", ph "b"), (str "b", str "x")])
          [(str "a", ph "b"), (str "b", str "x")] ≠
        SubstituteTemplateVars (str "echo " ++ ph "a" ++ str " " ++ ph "b")
          [(str "a", ph "b"), (str "b", str "x")] := by
  decide

/-- Claim C4, amended. When every name returned by `ExtractTemplateVars` for
the command is a key of the map and every value of the map is non-empty and
contains neither `{` nor `}`, substituting a second time changes nothing. -/
theorem substitute_idempotent_plain_values (s : GoString) (v : GoMap)
    (hk : ∀ k ∈ ExtractTemplateVars s, v.hasKey k) (hv : v.plainValues) :
    SubstituteTemplateVars (SubstituteTemplateVars s v) v = SubstituteTemplateVars s v :=
  substitute_idem_plain s v hk hv

/-- Witness for C4, amended: `ssh {{user}}@{{host}}` with both names
given. -/
theorem substitute_idempotent_plain_values_witness :
    SubstituteTemplateVars
        (SubstituteTemplateVars (str "ssh " ++ ph "user" ++ str "@" ++ ph "host")
          [(str "user", str "bob"), (str "host", str "srv")])
        [(str "user", str "bob"), (str "host", str "srv")] =
      SubstituteTemplateVars (str "ssh " ++ ph "user" ++ str "@" ++ ph "host")
        [(str "user", str "bob"), (str "host", str "srv")] :=
  substitute_idempotent_plain_values (str "ssh " ++ ph "user" ++ str "@" ++ ph "host")
    [(str "user", str "bob"), (str "host", str "srv")] (by decide) (by decide)

/-- Claim C5. In list mode with an in-bounds selection whose command has the
variables `v_1..v_n`, `n ≥ 1`, the copy key issues no request and starts
collecting at index 0; after typing and confirming the first `j < n` texts the
session is still collecting, prompts for the variable of index `j` and has
issued no request; after the `n`-th confirmation exactly one clipboard request
has been issued, its text is the command substituted with the map sending each
`v_i` to the `i`-th text, and the session is back in list mode with the
template state cleared. -/
theorem copy_with_placeholders_collects_all (m : model) (k : KeyMsg) (rec : Command)
    (texts : List (List Int))
    (hstate : m.currentState = state.stateList) (hk : isCopyKey k)
    (hsel : index m.storage.Commands m.selected = some rec)
    (hvars : ExtractTemplateVars rec.Command ≠ [])
    (hlen : texts.length = (ExtractTemplateVars rec.Command).length) :
    (∀ j, j < texts.length →
      ∃ values, run m (Msg.key k :: answer (texts.take j)) =
        some { final := collecting m rec.Command values j, cmds := [], saved := [] }) ∧
    run m (Msg.key k :: answer texts) =
      some { final := collected m
             cmds := [Cmd.copyToClipboard (SubstituteTemplateVars rec.Command
               ((ExtractTemplateVars rec.Command).zip (texts.map encodeRunes)))]
             saved := [] } := by
  have hstep : Update m (Msg.key k) =
      some { next := collecting m rec.Command [] 0, cmd := none, saved := [] } := by
    rw [Update_copy_key m k rec hstate hk hsel, if_pos (List.length_pos.mpr hvars)]
  constructor
  · intro j hj
    refine ⟨GoMap.setAll []
      ((ExtractTemplateVars rec.Command).zip ((texts.take j).map encodeRunes)), ?_⟩
    have := run_collecting_prefix m rec.Command (texts.take j) [] []
      (ExtractTemplateVars rec.Command) rfl (by rw [List.length_take]; omega)
    simp only [List.length_nil, Nat.zero_add, List.length_take, Nat.min_eq_left (Nat.le_of_lt hj)]
      at this
    rw [run_cons, hstep]
    dsimp only
    rw [this]
    rfl
  · have := run_collecting_all m rec.Command texts [] []
      (ExtractTemplateVars rec.Command) rfl hvars hlen
    simp only [List.length_nil] at this
    rw [run_cons, hstep]
    dsimp only
    rw [this, substitute_setAll_zip _ (extract_nodup _) _ (by simp [hlen])]
    rfl

/-- Witness for C5: over the record `ssh {{user}}@{{host}}`, pressing `c`,
typing `bob`, enter, typing `srv`, enter copies `ssh bob@srv`. -/
theorem copy_with_placeholders_collects_all_witness :
    run (sessionOver [⟨str "ssh " ++ ph "user" ++ str "@" ++ ph "host", str "ssh into a host"⟩])
        (Msg.key (keyRunes [99]) :: answer [[98, 111, 98], [115, 114, 118]]) =
      some { final := collected
               (sessionOver
                 [⟨str "ssh " ++ ph "user" ++ str "@" ++ ph "host", str "ssh into a host"⟩])
             cmds := [Cmd.copyToClipboard (str "ssh bob@srv")]
             saved := [] } :=
  (copy_with_placeholders_collects_all
    (sessionOver [⟨str "ssh " ++ ph "user" ++ str "@" ++ ph "host", str "ssh into a host"⟩])
    (keyRunes [99]) ⟨str "ssh " ++ ph "user" ++ str "@" ++ ph "host", str "ssh into a host"⟩
    [[98, 111, 98], [115, 114, 118]] (by decide) (by decide) (by decide) (by decide)
    (by decide)).2.trans (by decide)

/-- Claim C6. In list mode with an in-bounds selection whose command has no
placeholders, which is the case of every command that does not contain `{{`,
the copy key (`c` or enter) issues one clipboard request carrying the command
text unchanged and returns the state unchanged. -/
theorem copy_without_placeholders (m : model) (k : KeyMsg) (rec : Command)
    (hstate : m.currentState = state.stateList) (hk : isCopyKey k)
    (hsel : index m.storage.Commands m.selected = some rec)
    (hvars : ExtractTemplateVars rec.Command = [] ∨ ¬ (openBraces <:+: rec.Command)) :
    ExtractTemplateVars rec.Command = [] ∧
      Update m (Msg.key k) =
        some { next := m, cmd := some (Cmd.copyToClipboard rec.Command), saved := [] } := by
  have hnil : ExtractTemplateVars rec.Command = [] := by
    rcases hvars with h | h
    · exact h
    · exact extract_of_no_open h
  refine ⟨hnil, ?_⟩
  rw [Update_copy_key m k rec hstate hk hsel, hnil]
  rfl

/-- Witness for C6: over the single record `git status`, enter copies
`git status` and leaves the session as it was. -/
theorem copy_without_placeholders_witness :
    Update (sessionOver [⟨str "git status", str "show the working tree"⟩]) (Msg.key keyEnter) =
      some { next := sessionOver [⟨str "git status", str "show the working tree"⟩]
             cmd := some (Cmd.copyToClipboard (str "git status"))
             saved := [] } :=
  (copy_without_placeholders (sessionOver [⟨str "git status", str "show the working tree"⟩])
    keyEnter ⟨str "git status", str "show the working tree"⟩ (by decide) (by decide)
    (by decide) (Or.inr (by decide))).2

/-- Claim C7. From the initial state over any loaded list, every finite
sequence of events (keys, generation results, copy results, other messages)
runs without panic and ends in a state whose selection is `0` when the list
is empty and lies between `0` and the last index when it is not. -/
theorem selection_stays_in_bounds (loaded : Except GoError Storage) (events : List Msg) :
    ∃ t, run (initialModel loaded) events = some t ∧
      (t.final.storage.Commands = [] → t.final.selected = 0) ∧
      (t.final.storage.Commands ≠ [] →
        0 ≤ t.final.selected ∧
          t.final.selected ≤ (t.final.storage.Commands.length : Int) - 1) := by
  obtain ⟨t, ht, hs, -⟩ :=
    run_preserves events (initialModel_valid loaded).1 (initialModel_valid loaded).2
  exact ⟨t, ht, hs⟩

/-- Claim C8. In list mode with selection `i` inside the list, the delete key
removes exactly the record at position `i`, keeps the others in order, saves
the new list, and leaves the selection at `i` when `i` was not the last
index, at the new last index when it was, and at `0` when the list becomes
empty. -/
theorem delete_removes_selected (m : model) (k : KeyMsg) (i : Nat)
    (hstate : m.currentState = state.stateList) (hk : k.String = str "d")
    (hsel : m.selected = (i : Int)) (hi : i < m.storage.Commands.length) :
    Update m (Msg.key k) =
      some { next := { m with storage := { Commands := m.storage.Commands.eraseIdx i }
                              selected :=
                                if i + 1 < m.storage.Commands.length then (i : Int)
                                else if m.storage.Commands.length = 1 then 0
                                else (m.storage.Commands.length : Int) - 2
                              copyMessage := [] }
             cmd := none
             saved := [{ Commands := m.storage.Commands.eraseIdx i }] } := by
  have h1 : ¬ (k.String = str "ctrl+c" ∨ k.String = str "q") := by rw [hk]; decide
  have h2 : ¬ (k.String = str "up" ∨ k.String = str "k") := by rw [hk]; decide
  have h3 : ¬ (k.String = str "down" ∨ k.String = str "j") := by rw [hk]; decide
  have h4 : ¬ (k.String = str "n") := by rw [hk]; decide
  have h5 : ¬ (k.String = str "c" ∨ k.String = str "enter") := by rw [hk]; decide
  have h6 : m.storage.Commands.length > 0 := by omega
  have h7 : 0 ≤ m.selected ∧ m.selected + 1 ≤ (m.storage.Commands.length : Int) := by omega
  simp only [Update, hstate]
  unfold updateList
  dsimp only
  rw [if_neg h1, if_neg h2, if_neg h3, if_neg h4, if_neg h5, if_pos hk, if_pos h6, if_pos h7]
  have he : m.storage.Commands.take m.selected.toNat ++
      m.storage.Commands.drop (m.selected + 1).toNat = m.storage.Commands.eraseIdx i := by
    rw [hsel, List.eraseIdx_eq_take_drop_succ]
    rfl
  rw [he]
  have hl : (m.storage.Commands.eraseIdx i).length = m.storage.Commands.length - 1 := by
    rw [List.length_eraseIdx, if_pos hi]
  have hs : (if m.selected ≥ ((m.storage.Commands.eraseIdx i).length : Int) ∧ m.selected > 0
      then m.selected - 1 else m.selected) =
      (if i + 1 < m.storage.Commands.length then (i : Int)
        else if m.storage.Commands.length = 1 then 0
        else (m.storage.Commands.length : Int) - 2) := by
    rw [hl, hsel]
    split <;> split <;> (try split) <;> omega
  rw [hs, hstate]

/-- Witness for C8: with the last of three records selected, `d` removes it
and the selection moves to the new last index. -/
theorem delete_removes_selected_witness :
    Update { sessionOver [⟨str "a", str "A"⟩, ⟨str "b", str "B"⟩, ⟨str "c", str "C"⟩] with
             selected := 2 } (Msg.key (keyRunes [100])) =
      some { next := { sessionOver [⟨str "a", str "A"⟩, ⟨str "b", str "B"⟩] with selected := 1 }
             cmd := none
             saved := [{ Commands := [⟨str "a", str "A"⟩, ⟨str "b", str "B"⟩] }] } :=
  (delete_removes_selected
    { sessionOver [⟨str "a", str "A"⟩, ⟨str "b", str "B"⟩, ⟨str "c", str "C"⟩] with
      selected := 2 } (keyRunes [100]) 2 (by decide) (by decide) (by decide)
    (by decide)).trans (by decide)

/-- Claim C9. In the command-entry mode with a non-empty buffer `b`, enter
issues one description request for `b` and waits; when that request fails
with `e` the session asks for a manual description with `b` pending, an empty
buffer, the error `e` and the list unchanged; typing a non-empty description
and confirming then appends the record of `b` and that description at the end
of the list, saves it, selects it, clears the pending command, the buffer and
the error, and returns to list mode. -/
theorem generation_failure_manual_entry (m : model) (k : KeyMsg) (e : GoError) (d : List Int)
    (hstate : m.currentState = state.stateInput) (hb : m.input ≠ [])
    (hk : k.Type_ = KeyType.KeyEnter) (hd : encodeRunes d ≠ []) :
    Update m (Msg.key k) =
        some { next := { m with currentState := state.stateGenerating }
               cmd := some (Cmd.generateDescription m.input), saved := [] } ∧
      Update { m with currentState := state.stateGenerating }
          (Msg.generated (generateDescription m.input (Except.error e))) =
        some { next := { m with currentState := state.stateManualDescription
                                pendingCommand := m.input
                                input := []
                                err := some e }
               cmd := none, saved := [] } ∧
      run { m with currentState := state.stateManualDescription
                   pendingCommand := m.input
                   input := []
                   err := some e }
          (typeText d ++ [Msg.key k]) =
        some { final := { m with storage := { Commands := m.storage.Commands ++
                                    [{ Command := m.input, Description := encodeRunes d }] }
                                 currentState := state.stateList
                                 selected := (m.storage.Commands.length : Int)
                                 input := []
                                 pendingCommand := []
                                 err := none }
               cmds := []
               saved := [{ Commands := m.storage.Commands ++
                            [{ Command := m.input, Description := encodeRunes d }] }] } := by
  refine ⟨Update_confirm_input m k hstate hb hk, rfl, ?_⟩
  rw [run_append, run_typeText_manual _ _ rfl]
  dsimp only
  rw [run_cons, Update_confirm_manual _ k rfl (by simpa using hd) hk]
  simp [run]

/-- Witness for C9: `ls` was entered over one stored record and generation
failed with `no key`; typing `dir` and enter makes the record of `ls` and
`dir` the second and selected record. -/
theorem generation_failure_manual_entry_witness :
    run { enteringCommand [⟨str "pwd", str "where am I"⟩] (str "ls") with
          currentState := state.stateManualDescription
          pendingCommand := str "ls"
          input := []
          err := some (str "no key") }
        (typeText [100, 105, 114] ++ [Msg.key keyEnter]) =
      some { final := { sessionOver [⟨str "pwd", str "where am I"⟩, ⟨str "ls", str "dir"⟩] with
                        selected := 1 }
             cmds := []
             saved := [{ Commands := [⟨str "pwd", str "where am I"⟩, ⟨str "ls", str "dir"⟩] }] } :=
  (generation_failure_manual_entry
    (enteringCommand [⟨str "pwd", str "where am I"⟩] (str "ls")) keyEnter (str "no key")
    [100, 105, 114] (by decide) (by decide) (by decide) (by decide)).2.2.trans (by decide)

/-- Claim C10. In the command-entry mode with a non-empty buffer `b`, when
the description request issued by enter succeeds with `d`, the session is in
list mode, the list is the previous list followed by the record of `b` and
`d`, that record is selected, the list has been saved, the buffer is empty
and no error is set. -/
theorem generation_success_appends (m : model) (k : KeyMsg) (d : GoString)
    (hstate : m.currentState = state.stateInput) (hb : m.input ≠ [])
    (hk : k.Type_ = KeyType.KeyEnter) :
    run m [Msg.key k, Msg.generated (generateDescription m.input (Except.ok d))] =
      some { final := { m with storage := { Commands := m.storage.Commands ++
                                  [{ Command := m.input, Description := d }] }
                               currentState := state.stateList
                               input := []
                               selected := (m.storage.Commands.length : Int)
                               err := none }
             cmds := [Cmd.generateDescription m.input]
             saved := [{ Commands := m.storage.Commands ++
                          [{ Command := m.input, Description := d }] }] } := by
  rw [run_cons, Update_confirm_input m k hstate hb hk]
  dsimp only
  rw [run_cons]
  simp [Update, updateGenerated, generateDescription, run]

/-- Witness for C10: `ls` is entered over one stored record and generation
answers `list files`. -/
theorem generation_success_appends_witness :
    run (enteringCommand [⟨str "pwd", str "where am I"⟩] (str "ls"))
        [Msg.key keyEnter,
          Msg.generated (generateDescription (str "ls") (Except.ok (str "list files")))] =
      some { final := { sessionOver
                          [⟨str "pwd", str "where am I"⟩, ⟨str "ls", str "list files"⟩] with
                        selected := 1 }
             cmds := [Cmd.generateDescription (str "ls")]
             saved := [{ Commands :=
                          [⟨str "pwd", str "where am I"⟩, ⟨str "ls", str "list files"⟩] }] } :=
  (generation_success_appends (enteringCommand [⟨str "pwd", str "where am I"⟩] (str "ls"))
    keyEnter (str "list files") (by decide) (by decide) (by decide)).trans (by decide)

/-- Claim C11, evaluated where the code departs from it.  On a disk whose
writes fail with `disk full`, each of the three mutating transitions (add on
generation success, add on manual confirmation, delete) hands the new list to
`SaveCommands`, which returns the failure; the resulting state keeps the
mutation but its `err` field does not hold the failure: it is nil. -/
theorem save_failure_not_surfaced :
    saveOutcome fullDisk
        (Update (awaitingGeneration [] (str "ls"))
          (Msg.generated (generateDescription (str "ls") (Except.ok (str "list files"))))) =
      some ([some (str "disk full")], none, [⟨str "ls", str "list files"⟩]) ∧
    saveOutcome fullDisk
        (Update (describingManually [] (str "ls") (str "list files") (str "no key"))
          (Msg.key keyEnter)) =
      some ([some (str "disk full")], none, [⟨str "ls", str "list files"⟩]) ∧
    saveOutcome fullDisk
        (Update (sessionOver [⟨str "ls", str "list files"⟩]) (Msg.key (keyRunes [100]))) =
      some ([some (str "disk full")], none, []) :=
  ⟨by decide, by decide, by decide⟩

/-- Claim C12, evaluated where the code departs from it.  From an empty disk
on which the load and every save succeed, the keys `n`, the two-byte
character U+00E9, backspace, enter, then a generation failure, the key `d`
and enter add one record with a single save of the new list, as the claim
says; but the record in memory holds the lone byte C3 left by the backspace,
which the JSON encoding of the save replaces by U+FFFD, so the list read back
from the disk is not the list in memory. -/
theorem persisted_list_differs_after_backspace :
    persistedList emptyDisk = some [] ∧
    (run (initialModel (LoadCommands emptyDisk))
        [Msg.key (keyRunes [110]), Msg.key (keyRunes [233]), Msg.key keyBackspace,
          Msg.key keyEnter,
          Msg.generated (generateDescription [0xC3] (Except.error (str "no key"))),
          Msg.key (keyRunes [100]), Msg.key keyEnter]).map
        (fun t => (t.final.storage.Commands, t.saved)) =
      some ([⟨[0xC3], str "d"⟩], [⟨[⟨[0xC3], str "d"⟩]⟩]) ∧
    (run (initialModel (LoadCommands emptyDisk))
        [Msg.key (keyRunes [110]), Msg.key (keyRunes [233]), Msg.key keyBackspace,
          Msg.key keyEnter,
          Msg.generated (generateDescription [0xC3] (Except.error (str "no key"))),
          Msg.key (keyRunes [100]), Msg.key keyEnter]).map
        (fun t => (t.saved.map (fun s => (SaveCommands emptyDisk s).2),
          persistedList (persist emptyDisk t.saved))) =
      some ([none], some [⟨[0xEF, 0xBF, 0xBD], str "d"⟩]) :=
  ⟨by decide, by decide, by decide⟩

/-- Claim C13. In list mode over an empty command list, the copy key (`c` or
enter) and the delete key (`d`) return the state unchanged, issue no request
and do not save. -/
theorem empty_list_copy_delete_noop (m : model) (k : KeyMsg)
    (hstate : m.currentState = state.stateList) (hempty : m.storage.Commands = [])
    (hk : isCopyKey k ∨ k.String = str "d") :
    Update m (Msg.key k) = some { next := m, cmd := none, saved := [] } := by
  have hlen : ¬ m.storage.Commands.length > 0 := by rw [hempty]; simp
  simp only [Update, hstate]
  rcases hk with hk | hk
  · rw [updateList_copy m k hk, if_neg hlen]
  · have h1 : ¬ (k.String = str "ctrl+c" ∨ k.String = str "q") := by rw [hk]; decide
    have h2 : ¬ (k.String = str "up" ∨ k.String = str "k") := by rw [hk]; decide
    have h3 : ¬ (k.String = str "down" ∨ k.String = str "j") := by rw [hk]; decide
    have h4 : ¬ (k.String = str "n") := by rw [hk]; decide
    have h5 : ¬ (k.String = str "c" ∨ k.String = str "enter") := by rw [hk]; decide
    unfold updateList
    dsimp only
    rw [if_neg h1, if_neg h2, if_neg h3, if_neg h4, if_neg h5, if_pos hk, if_neg hlen]

/-- Witness for C13: `d` over the empty list, with a status message showing,
changes nothing. -/
theorem empty_list_copy_delete_noop_witness :
    Update { sessionOver [] with copyMessage := str "Copied to clipboard!" }
        (Msg.key (keyRunes [100])) =
      some { next := { sessionOver [] with copyMessage := str "Copied to clipboard!" }
             cmd := none, saved := [] } :=
  empty_list_copy_delete_noop { sessionOver [] with copyMessage := str "Copied to clipboard!" }
    (keyRunes [100]) (by decide) (by decide) (Or.inr (by decide))

/-- Claim C14. In every run from the initial state in which each generation
result answers an outstanding description request for its command, at most
one description request is outstanding; and in the generating mode every key
event returns the state unchanged and issues no request. -/
theorem at_most_one_generation (loaded : Except GoError Storage) (events : List Msg)
    (r : model × Pending)
    (hrun : runPending (initialModel loaded) ⟨[], 0⟩ events = some r)
    (m : model) (k : KeyMsg) (hm : m.currentState = state.stateGenerating) :
    r.2.generations.length ≤ 1 ∧
      Update m (Msg.key k) = some { next := m, cmd := none, saved := [] } := by
  constructor
  · have hK : generationsBounded (initialModel loaded) ⟨[], 0⟩ :=
      ⟨by simp, fun _ => rfl⟩
    exact (runPending_bounded events _ _ r hK hrun).1
  · simp only [Update, hm]

/-- Witness for C14: `ls` is entered and confirmed, keys pressed while
waiting are ignored, and one request is outstanding. -/
theorem at_most_one_generation_witness :
    ([str "ls"] : List GoString).length ≤ 1 ∧
      Update (awaitingGeneration [] (str "ls")) (Msg.key keyEnter) =
        some { next := awaitingGeneration [] (str "ls"), cmd := none, saved := [] } :=
  at_most_one_generation (Except.ok ⟨[]⟩)
    [Msg.key (keyRunes [110]), Msg.key (keyRunes [108]), Msg.key (keyRunes [115]),
      Msg.key keyEnter, Msg.key keyEnter, Msg.key (keyRunes [113])]
    (awaitingGeneration [] (str "ls"), ⟨[str "ls"], 0⟩) (by decide)
    (awaitingGeneration [] (str "ls")) keyEnter (by decide)

/-- Counterexample to C15 as stated: over the record `git status`, pressing
`c` twice issues two clipboard requests; the run contains no copy result, so
both requests are outstanding. -/
theorem two_copy_requests_outstanding :
    (runPending (sessionOver [⟨str "git status", str "show the working tree"⟩]) ⟨[], 0⟩
        [Msg.key (keyRunes [99]), Msg.key (keyRunes [99])]).map (fun r => r.2.copies) =
      some 2 := by
  decide

/-- Claim C15, amended. An event issues at most one request, and it issues a
clipboard request only when it is a key event: the copy key (`c` or enter) in
list mode, or enter while the values of the variables are collected; result
events issue none. -/
theorem copy_request_origin (m : model) (e : Msg) (st : Step) (t : GoString)
    (hst : Update m e = some st) (hc : st.cmd = some (Cmd.copyToClipboard t)) :
    ∃ k, e = Msg.key k ∧
      ((m.currentState = state.stateList ∧ isCopyKey k) ∨
        (m.currentState = state.stateTemplateInput ∧ k.Type_ = KeyType.KeyEnter)) :=
  (Update_facts hst).2.2.1 t hc

/-- Witness for C15, amended: the clipboard request for `git status` comes
from the key `c` pressed in list mode. -/
theorem copy_request_origin_witness :
    ∃ k, Msg.key (keyRunes [99]) = Msg.key k ∧
      (((sessionOver [⟨str "git status", str "show the working tree"⟩]).currentState =
          state.stateList ∧ isCopyKey k) ∨
        ((sessionOver [⟨str "git status", str "show the working tree"⟩]).currentState =
          state.stateTemplateInput ∧ k.Type_ = KeyType.KeyEnter)) :=
  copy_request_origin (sessionOver [⟨str "git status", str "show the working tree"⟩])
    (Msg.key (keyRunes [99]))
    ⟨sessionOver [⟨str "git status", str "show the working tree"⟩],
      some (Cmd.copyToClipboard (str "git status")), []⟩
    (str "git status") (by decide) rfl

/-- Counterexample to C16 as stated: over the record `git status` the keys
`c`, `n`, then the copy result, then `l`, enter lead to the generating mode
with the status message `Copied to clipboard!`; after the generation success
the message is still there. -/
theorem status_message_survives_generation :
    (run (sessionOver [⟨str "git status", str "show the working tree"⟩])
        [Msg.key (keyRunes [99]), Msg.key (keyRunes [110]), Msg.copied ⟨true, none⟩,
          Msg.key (keyRunes [108]), Msg.key keyEnter]).map
        (fun t => (t.final.currentState, t.final.copyMessage)) =
      some (state.stateGenerating, str "Copied to clipboard!") ∧
    (run (sessionOver [⟨str "git status", str "show the working tree"⟩])
        [Msg.key (keyRunes [99]), Msg.key (keyRunes [110]), Msg.copied ⟨true, none⟩,
          Msg.key (keyRunes [108]), Msg.key keyEnter,
          Msg.generated (generateDescription (str "l") (Except.ok (str "list")))]).map
        (fun t => (t.final.currentState, t.final.copyMessage)) =
      some (state.stateList, str "Copied to clipboard!") :=
  ⟨by decide, by decide⟩

/-- Claim C16, amended. A generation success leaves the status message as it
was: in every state, and so in every state of the generating mode, the state
after the event is in list mode and has the `copyMessage` of the state before
it. -/
theorem generation_success_keeps_status (m : model) (b d : GoString) :
    ∃ st, Update m (Msg.generated (generateDescription b (Except.ok d))) = some st ∧
      st.next.currentState = state.stateList ∧ st.next.copyMessage = m.copyMessage :=
  ⟨_, rfl, rfl, rfl⟩

/-- Claim C17. From the initial state every finite sequence of events runs
without panic and ends in a state in which, when values are being collected,
the current variable index is an index of `templateVars`, `templateValues` is
an initialised map, and the access `templateVars[currentVarIndex]` is in
range. -/
theorem template_index_in_range (loaded : Except GoError Storage) (events : List Msg) :
    ∃ t, run (initialModel loaded) events = some t ∧
      (t.final.currentState = state.stateTemplateInput →
        0 ≤ t.final.currentVarIndex ∧
          t.final.currentVarIndex < (t.final.templateVars.length : Int) ∧
          t.final.templateValues ≠ none ∧
          ∃ v, index t.final.templateVars t.final.currentVarIndex = some v) := by
  obtain ⟨t, ht, -, hv⟩ :=
    run_preserves events (initialModel_valid loaded).1 (initialModel_valid loaded).2
  refine ⟨t, ht, fun hm => ?_⟩
  obtain ⟨h0, h1, h2⟩ := hv hm
  exact ⟨h0, h1, h2, index_some h0 h1⟩

/-- Claim C18, evaluated where the code departs from it.  In each of the
three text-entry modes, typing the two-byte character U+00E9 into an empty
buffer and pressing backspace leaves the single byte C3 in the buffer, not
the empty buffer; typing the one-byte character `a` and pressing backspace
does restore it. -/
theorem backspace_drops_one_byte :
    (run (enteringCommand [] []) [Msg.key (keyRunes [233]), Msg.key keyBackspace]).map
        (fun t => t.final.input) = some [0xC3] ∧
    (run (describingManually [] (str "ls") [] (str "no key"))
        [Msg.key (keyRunes [233]), Msg.key keyBackspace]).map
        (fun t => t.final.input) = some [0xC3] ∧
    (run (collecting (sessionOver [⟨ph "x", str "a variable"⟩]) (ph "x") [] 0)
        [Msg.key (keyRunes [233]), Msg.key keyBackspace]).map
        (fun t => t.final.input) = some [0xC3] ∧
    (run (enteringCommand [] []) [Msg.key (keyRunes [97]), Msg.key keyBackspace]).map
        (fun t => t.final.input) = some [] :=
  ⟨by decide, by decide, by decide, by decide⟩

/-- Counterexample to C19 as stated: the name `a}b` is non-empty, has no
outer white space and does not contain `}}`, yet no variable is extracted
from `{{a}b}}` and substitution leaves that text unchanged. -/
theorem single_brace_name_not_matched :
    str "a" ++ [0x7D] ++ str "b" ≠ [] ∧ noOuterSpace (str "a" ++ [0x7D] ++ str "b") ∧
      ¬ (closeBraces <:+: str "a" ++ [0x7D] ++ str "b") ∧
      ExtractTemplateVars (openBraces ++ (str "a" ++ [0x7D] ++ str "b") ++ closeBraces) = [] ∧
      SubstituteTemplateVars (openBraces ++ (str "a" ++ [0x7D] ++ str "b") ++ closeBraces)
          [(str "a" ++ [0x7D] ++ str "b", str "x")] =
        openBraces ++ (str "a" ++ [0x7D] ++ str "b") ++ closeBraces :=
  ⟨by decide, by decide, by decide, by decide, by decide⟩

/-- Claim C19, amended. For every non-empty name without outer white space
that does not contain the character `}`, the placeholder made of the name
between `{{` and `}}` yields exactly that name, and substituting with a map
that sends the name to a value yields the value. -/
theorem placeholder_name_without_close (n x : GoString) (hne : n ≠ [])
    (ht : noOuterSpace n) (hn : 0x7D ∉ n) :
    ExtractTemplateVars (openBraces ++ n ++ closeBraces) = [n] ∧
      SubstituteTemplateVars (openBraces ++ n ++ closeBraces) [(n, x)] = x :=
  ⟨extract_single hne ht hn, substitute_single hne ht hn x⟩

/-- Witness for C19, amended: the name `{my var` contains a left brace and
a space. -/
theorem placeholder_name_without_close_witness :
    ExtractTemplateVars (openBraces ++ ([0x7B] ++ str "my var") ++ closeBraces) =
        [[0x7B] ++ str "my var"] ∧
      SubstituteTemplateVars (openBraces ++ ([0x7B] ++ str "my var") ++ closeBraces)
          [([0x7B] ++ str "my var", str "value")] = str "value" :=
  placeholder_name_without_close ([0x7B] ++ str "my var") (str "value") (by decide)
    (by decide) (by decide)

/-- Claim C20. When every name returned by `ExtractTemplateVars` for the
command is a key of the map and every value of the map is non-empty and
contains neither `{` nor `}`, no variable is extracted from the substituted
text. -/
theorem full_resolution_leaves_no_placeholder (s : GoString) (v : GoMap)
    (hk : ∀ k ∈ ExtractTemplateVars s, v.hasKey k) (hv : v.plainValues) :
    ExtractTemplateVars (SubstituteTemplateVars s v) = [] :=
  extract_of_no_match (substitute_no_match hk hv)

/-- Witness for C20: `ssh {{user}}@{{host}}` with both names given. -/
theorem full_resolution_leaves_no_placeholder_witness :
    ExtractTemplateVars
        (SubstituteTemplateVars (str "ssh " ++ ph "user" ++ str "@" ++ ph "host")
          [(str "user", str "bob"), (str "host", str "srv")]) = [] :=
  full_resolution_leaves_no_placeholder (str "ssh " ++ ph "user" ++ str "@" ++ ph "host")
    [(str "user", str "bob"), (str "host", str "srv")] (by decide) (by decide)

end Memorycat
